import Mathlib

/-!
Verification of the prompt-library core (src/src/app/page.tsx): the template
engine (`extractVariables`, `substituteVariables`), the share codec
(`serializePrompt`, `deserializePrompt` built from `JSON.stringify`,
`encodeURIComponent` and `btoa` and their inverses), and the store operations
(`createPrompt`, `savePrompt`, `deletePrompt`, `loadPreset`) together with the
persistence effect that writes the library to local storage.

Strings are modelled as Lean strings (sequences of Unicode scalar values);
JavaScript strings with unpaired surrogate code units are outside the model.
-/

/-- JS `\w` character class: `[A-Za-z0-9_]` (the regexes in the source have no
`u` flag, so `\w` is ASCII-only). -/
def isWordChar (c : Char) : Bool :=
  c.isAlphanum || c = '_'

/-- One match attempt of the source regex `\{\{(\w+)\}\}` at the head of `s`:
two opening braces, one or more word characters (greedy, and no backtracking is
ever needed because `\w` matches neither brace), two closing braces.  Returns
the identifier between the braces. -/
def placeholderMatch? (s : List Char) : Option (List Char) :=
  match s with
  | '{' :: '{' :: t =>
    if t.takeWhile isWordChar = [] then none
    else
      match t.drop (t.takeWhile isWordChar).length with
      | '}' :: '}' :: _ => some (t.takeWhile isWordChar)
      | _ => none
  | _ => none

/-- Identifiers of all matches of `content.match(/\{\{(\w+)\}\}/g)` in match
order: the global match scans left to right and resumes after each match. -/
def scanIdents : List Char → List String
  | [] => []
  | c :: cs =>
    match placeholderMatch? (c :: cs) with
    | some w => String.mk w :: scanIdents (cs.drop (w.length + 3))
    | none => scanIdents cs
termination_by l => l.length
decreasing_by
  · simp [List.length_drop]; omega
  · simp

/-- `[...new Set(xs)]`: keep the first occurrence of each element, in order. -/
def dedupFirst : List String → List String
  | [] => []
  | x :: xs => x :: dedupFirst (xs.filter (fun y => y ≠ x))
termination_by l => l.length
decreasing_by
  exact Nat.lt_succ_of_le (xs.length_filter_le _)

/-- `extractVariables` from the source: collect the matches of
`/\{\{(\w+)\}\}/g` (`content.match(...) || []`), strip the braces from each
match (for a match `{{w}}` the inner `replace(/\{\{|\}\}/g, '')` yields `w`,
since `w` contains no brace), and deduplicate keeping first-occurrence order
(`[...new Set(...)]`). -/
def extractVariables (content : String) : List String :=
  dedupFirst (scanIdents content.data)

/-- ECMAScript GetSubstitution for a string replacement and a pattern with no
capture groups: `$$` yields `$`, `$&` the matched substring, ``$` `` the part
of the original string before the match, `$'` the part after it; any other
use of `$` (including `$1`, there being no groups) is literal.  Character
codes: 36 `$`, 38 `&`, 96 backquote, 39 quote. -/
def getSubstitution (matched before after : List Char) : List Char → List Char
  | [] => []
  | c :: r =>
    if c.toNat = 36 then
      match r with
      | [] => [c]
      | d :: r2 =>
        if d.toNat = 36 then c :: getSubstitution matched before after r2
        else if d.toNat = 38 then matched ++ getSubstitution matched before after r2
        else if d.toNat = 96 then before ++ getSubstitution matched before after r2
        else if d.toNat = 39 then after ++ getSubstitution matched before after r2
        else c :: getSubstitution matched before after (d :: r2)
    else c :: getSubstitution matched before after r
termination_by l => l.length
decreasing_by all_goals simp_arith

/-- Boolean prefix test on lists of characters (`pat` begins `s`). -/
def listStarts : List Char → List Char → Bool
  | [], _ => true
  | _ :: _, [] => false
  | a :: as, b :: bs => a = b && listStarts as bs

/-- The scan of `String.prototype.replace` with a global regex denoting the
literal string `pat` and the string replacement `repl`: at each position, if
`pat` matches, emit the processed replacement and resume after the match,
otherwise copy one character.  `orig` and `pos` record the original string and
the current position, which GetSubstitution needs for the before/after
patterns. -/
def jsReplAux (pat repl orig : List Char) : List Char → Nat → List Char
  | [], _ => []
  | c :: rest, pos =>
    if (!pat.isEmpty) && listStarts pat (c :: rest) then
      getSubstitution pat (orig.take pos) (orig.drop (pos + pat.length)) repl
        ++ jsReplAux pat repl orig (rest.drop (pat.length - 1)) (pos + pat.length)
    else
      c :: jsReplAux pat repl orig rest (pos + 1)
termination_by l _ => l.length
decreasing_by
  · simp [List.length_drop]; omega
  · simp

/-- `s.replace(regexFor pat, repl)` where the regex is global and denotes the
literal string `pat`. -/
def jsReplaceAll (pat repl s : String) : String :=
  String.mk (jsReplAux pat.data repl.data s.data s.data 0)

/-- The placeholder text `{{key}}`. -/
def placeholderText (key : String) : String :=
  String.mk ('{' :: '{' :: key.data ++ ['}', '}'])

/-- `substituteVariables` from the source: fold over `Object.entries(values)`
in insertion order; each entry replaces all occurrences of its placeholder,
an empty value being replaced by the placeholder itself
(`value || placeholder`).  This models the source on maps whose keys consist
of word characters: for such a key the constructed
`new RegExp("\\{\\{key\\}\\}", "g")` denotes the literal placeholder.  For
other keys the constructed pattern contains metacharacters or fails to
compile (see `regExpPatternOk`). -/
def substituteVariables (content : String) (values : List (String × String)) : String :=
  values.foldl
    (fun result kv =>
      jsReplaceAll (placeholderText kv.1)
        (if kv.2 = "" then placeholderText kv.1 else kv.2) result)
    content

/-! ## The share codec: JSON, percent-encoding and base64 -/

/-- JSON values as `JSON.parse` produces them.  A numeric literal is kept as
its source text: the conversion to an IEEE double is outside the model, and no
number ever occurs in the share payloads. -/
inductive Json where
  | null
  | bool (b : Bool)
  | num (lit : String)
  | str (s : String)
  | arr (elems : List Json)
  | obj (fields : List (String × Json))

/-- Lowercase hexadecimal digit (`JSON.stringify` emits `\u00xx` escapes with
lowercase hex). -/
def hexDigitLower (n : Nat) : Char :=
  if n < 10 then Char.ofNat (48 + n) else Char.ofNat (87 + n)

/-- QuoteJSONString escape of one character: quote, backslash and the named
control characters get two-character escapes, any other control character a
`\u00xx` escape, everything else is verbatim. -/
def quoteJsonChar (c : Char) : List Char :=
  if c = '"' then ['\\', '"']
  else if c = '\\' then ['\\', '\\']
  else if c.toNat = 8 then ['\\', 'b']
  else if c.toNat = 9 then ['\\', 't']
  else if c.toNat = 10 then ['\\', 'n']
  else if c.toNat = 12 then ['\\', 'f']
  else if c.toNat = 13 then ['\\', 'r']
  else if c.toNat < 32 then
    ['\\', 'u', '0', '0', hexDigitLower (c.toNat / 16), hexDigitLower (c.toNat % 16)]
  else [c]

/-- `JSON.stringify` of a string value. -/
def quoteJsonString (s : String) : List Char :=
  '"' :: (s.data.map quoteJsonChar).flatten ++ ['"']

mutual
/-- `JSON.stringify` (no spacing argument): the exact character sequence
produced for a value. -/
def stringifyJson : Json → List Char
  | .null => "null".data
  | .bool true => "true".data
  | .bool false => "false".data
  | .num lit => lit.data
  | .str s => quoteJsonString s
  | .arr xs => '[' :: stringifyJsonList xs ++ [']']
  | .obj fs => '{' :: stringifyJsonFields fs ++ ['}']

/-- Comma-separated element list of `JSON.stringify`. -/
def stringifyJsonList : List Json → List Char
  | [] => []
  | [x] => stringifyJson x
  | x :: y :: xs => stringifyJson x ++ ',' :: stringifyJsonList (y :: xs)

/-- Comma-separated member list of `JSON.stringify`. -/
def stringifyJsonFields : List (String × Json) → List Char
  | [] => []
  | [(k, v)] => quoteJsonString k ++ ':' :: stringifyJson v
  | (k, v) :: f :: fs =>
    quoteJsonString k ++ ':' :: stringifyJson v ++ ',' :: stringifyJsonFields (f :: fs)
end

/-- JSON insignificant whitespace: space, tab, line feed, carriage return. -/
def isJsonWs (c : Char) : Bool :=
  c.toNat = 32 || c.toNat = 9 || c.toNat = 10 || c.toNat = 13

/-- Value of a hexadecimal digit, either case. -/
def hexVal? (c : Char) : Option Nat :=
  if '0' ≤ c ∧ c ≤ '9' then some (c.toNat - 48)
  else if 'a' ≤ c ∧ c ≤ 'f' then some (c.toNat - 87)
  else if 'A' ≤ c ∧ c ≤ 'F' then some (c.toNat - 55)
  else none

/-- One short escape of a JSON string literal: the character it denotes,
`none` for anything that is not a legal single-character escape. -/
def escChar? (e : Char) : Option Char :=
  if e = '"' then some '"'
  else if e = '\\' then some '\\'
  else if e = '/' then some '/'
  else if e = 'b' then some (Char.ofNat 8)
  else if e = 'f' then some (Char.ofNat 12)
  else if e = 'n' then some (Char.ofNat 10)
  else if e = 'r' then some (Char.ofNat 13)
  else if e = 't' then some (Char.ofNat 9)
  else none

/-- Value of four hexadecimal digits, `none` if any is not a digit. -/
def hquad? (a b c d : Char) : Option Nat :=
  match hexVal? a, hexVal? b, hexVal? c, hexVal? d with
  | some ha, some hb, some hc, some hd => some (((ha * 16 + hb) * 16 + hc) * 16 + hd)
  | _, _, _, _ => none

/-- One complete escape of a JSON string literal, the input starting right
after the backslash: a short escape or a `\uXXXX` escape; a `\uXXXX` high
surrogate must be directly followed by a low surrogate forming one scalar
value — a well-formedness boundary of the model, since JavaScript would keep
the lone surrogate code unit, which a Lean character cannot represent. -/
def jsonEscape? : List Char → Option (Char × List Char)
  | 'u' :: a :: b :: c :: d :: rest =>
    match hquad? a b c d with
    | some v =>
      if v < 0xD800 ∨ 0xDFFF < v then some (Char.ofNat v, rest)
      else if v < 0xDC00 then
        match rest with
        | '\\' :: 'u' :: a2 :: b2 :: c2 :: d2 :: rest2 =>
          match hquad? a2 b2 c2 d2 with
          | some w =>
            if 0xDC00 ≤ w ∧ w ≤ 0xDFFF then
              some (Char.ofNat (0x10000 + (v - 0xD800) * 1024 + (w - 0xDC00)), rest2)
            else none
          | none => none
        | _ => none
      else none
    | none => none
  | e :: rest =>
    match escChar? e with
    | some ch => some (ch, rest)
    | none => none
  | [] => none

theorem jsonEscape?_length {r : List Char} {ch : Char} {rest : List Char}
    (h : jsonEscape? r = some (ch, rest)) : rest.length < r.length := by
  rw [jsonEscape?.eq_def] at h
  split at h
  · rename_i a b c d t
    split at h
    · rename_i v hv
      split at h
      · injection h with h'
        injection h' with _ h2
        rw [← h2]
        simp only [List.length_cons]
        omega
      · split at h
        · split at h
          · rename_i a2 b2 c2 d2 rest2
            split at h
            · rename_i w hw
              split at h
              · injection h with h'
                injection h' with _ h2
                rw [← h2]
                simp only [List.length_cons]
                omega
              · cases h
            · cases h
          · cases h
        · cases h
    · cases h
  · rename_i e t _
    split at h
    · injection h with h'
      injection h' with _ h2
      rw [← h2]
      simp only [List.length_cons]
      omega
    · cases h
  · cases h

/-- Body of a JSON string literal, after the opening quote: ordinary
characters are verbatim (an unescaped control character is a syntax error),
a backslash starts an escape decoded by `jsonEscape?`. -/
def parseStringBody : List Char → Option (List Char × List Char)
  | [] => none
  | '"' :: rest => some ([], rest)
  | '\\' :: r =>
    match h : jsonEscape? r with
    | some (ch, rest) =>
      match parseStringBody rest with
      | some (s, rest2) => some (ch :: s, rest2)
      | none => none
    | none => none
  | c :: rest =>
    if c.toNat < 32 then none
    else
      match parseStringBody rest with
      | some (s, rest2) => some (c :: s, rest2)
      | none => none
termination_by l => l.length
decreasing_by
  · have := jsonEscape?_length h
    simp only [List.length_cons]
    omega
  · simp

/-- JSON number token `-? int frac? exp?`, returned as raw text.  A malformed
fraction or exponent is simply not consumed; the stray characters then fail
the surrounding parse, as they do in `JSON.parse`. -/
def parseNumberToken (s : List Char) : Option (List Char × List Char) :=
  let (neg, s1) :=
    match s with
    | '-' :: t => (['-'], t)
    | _ => (([] : List Char), s)
  match s1 with
  | [] => none
  | c :: t =>
    if ¬ c.isDigit then none
    else
      let (ipart, s2) :=
        if c = '0' then ([c], t)
        else (c :: t.takeWhile Char.isDigit, t.dropWhile Char.isDigit)
      let (fpart, s3) :=
        match s2 with
        | '.' :: u =>
          let ds := u.takeWhile Char.isDigit
          if ds = [] then (([] : List Char), s2)
          else ('.' :: ds, u.dropWhile Char.isDigit)
        | _ => (([] : List Char), s2)
      let (epart, s4) :=
        match s3 with
        | e :: u =>
          if e = 'e' ∨ e = 'E' then
            let (sgn, u2) :=
              match u with
              | '+' :: w => (['+'], w)
              | '-' :: w => (['-'], w)
              | _ => (([] : List Char), u)
            let ds := u2.takeWhile Char.isDigit
            if ds = [] then (([] : List Char), s3)
            else (e :: sgn ++ ds, u2.dropWhile Char.isDigit)
          else (([] : List Char), s3)
        | [] => (([] : List Char), s3)
      some (neg ++ ipart ++ fpart ++ epart, s4)

mutual
/-- Recursive-descent parser for the `JSON.parse` grammar.  `fuel` dominates
the recursion and is instantiated with the input length, which the number of
nested values can never exceed. -/
def parseJsonValue : Nat → List Char → Option (Json × List Char)
  | 0, _ => none
  | fuel + 1, s =>
    match s with
    | 'n' :: 'u' :: 'l' :: 'l' :: rest => some (.null, rest)
    | 't' :: 'r' :: 'u' :: 'e' :: rest => some (.bool true, rest)
    | 'f' :: 'a' :: 'l' :: 's' :: 'e' :: rest => some (.bool false, rest)
    | '"' :: rest =>
      match parseStringBody rest with
      | some (cs, rest2) => some (.str (String.mk cs), rest2)
      | none => none
    | '[' :: rest =>
      match rest.dropWhile isJsonWs with
      | ']' :: rest2 => some (.arr [], rest2)
      | s2 =>
        match parseJsonItems fuel s2 with
        | some (xs, rest2) => some (.arr xs, rest2)
        | none => none
    | '{' :: rest =>
      match rest.dropWhile isJsonWs with
      | '}' :: rest2 => some (.obj [], rest2)
      | s2 =>
        match parseJsonMembers fuel s2 with
        | some (fs, rest2) => some (.obj fs, rest2)
        | none => none
    | s =>
      match parseNumberToken s with
      | some (tok, rest) => some (.num (String.mk tok), rest)
      | none => none

/-- Items of a non-empty array, leading whitespace already stripped. -/
def parseJsonItems : Nat → List Char → Option (List Json × List Char)
  | 0, _ => none
  | fuel + 1, s =>
    match parseJsonValue (fuel + 1) s with
    | some (v, rest) =>
      match rest.dropWhile isJsonWs with
      | ',' :: rest2 =>
        match parseJsonItems fuel (rest2.dropWhile isJsonWs) with
        | some (xs, rest3) => some (v :: xs, rest3)
        | none => none
      | ']' :: rest2 => some ([v], rest2)
      | _ => none
    | none => none

/-- Members of a non-empty object, leading whitespace already stripped. -/
def parseJsonMembers : Nat → List Char → Option (List (String × Json) × List Char)
  | 0, _ => none
  | fuel + 1, s =>
    match s with
    | '"' :: r =>
      match parseStringBody r with
      | some (k, rest) =>
        match rest.dropWhile isJsonWs with
        | ':' :: rest2 =>
          match parseJsonValue (fuel + 1) (rest2.dropWhile isJsonWs) with
          | some (v, rest3) =>
            match rest3.dropWhile isJsonWs with
            | ',' :: rest4 =>
              match parseJsonMembers fuel (rest4.dropWhile isJsonWs) with
              | some (fs, rest5) => some ((String.mk k, v) :: fs, rest5)
              | none => none
            | '}' :: rest4 => some ([(String.mk k, v)], rest4)
            | _ => none
          | none => none
        | _ => none
      | none => none
    | _ => none
end

/-- `JSON.parse`: one value with surrounding insignificant whitespace;
anything left over is a syntax error.  All syntax errors are `none`. -/
def jsonParse (s : String) : Option Json :=
  match parseJsonValue (s.data.length + 1) (s.data.dropWhile isJsonWs) with
  | some (v, rest) => if rest.dropWhile isJsonWs = [] then some v else none
  | none => none

/-! ### base64 (`btoa` / `atob`) -/

/-- The base64 alphabet. -/
def b64Alphabet : List Char :=
  "ABCDEFGHIJKLMNOPQRSTUVWXYZabcdefghijklmnopqrstuvwxyz0123456789+/".data

/-- Character for a sextet. -/
def b64Char (n : Nat) : Char := b64Alphabet.getD n 'A'

/-- Sextet for a character, `none` outside the alphabet. -/
def b64Index? (c : Char) : Option Nat := b64Alphabet.findIdx? (fun a => a = c)

/-- Base64 text of a byte sequence: 3 bytes to 4 alphabet characters, with `=`
padding for a trailing 1- or 2-byte group. -/
def b64Encode : List Nat → List Char
  | a :: b :: c :: rest =>
    b64Char (a / 4) :: b64Char (a % 4 * 16 + b / 16) :: b64Char (b % 16 * 4 + c / 64)
      :: b64Char (c % 64) :: b64Encode rest
  | [a, b] => [b64Char (a / 4), b64Char (a % 4 * 16 + b / 16), b64Char (b % 16 * 4), '=']
  | [a] => [b64Char (a / 4), b64Char (a % 4 * 16), '=', '=']
  | [] => []

/-- `btoa`: a range error (modelled as `none`) if any code unit exceeds 255,
otherwise the base64 text of the code units. -/
def btoa? (s : String) : Option String :=
  if s.data.all (fun c => c.toNat < 256) then
    some (String.mk (b64Encode (s.data.map Char.toNat)))
  else none

/-- ASCII whitespace stripped by forgiving-base64 decoding. -/
def isB64Ws (c : Char) : Bool :=
  c.toNat = 9 || c.toNat = 10 || c.toNat = 12 || c.toNat = 13 || c.toNat = 32

/-- Remove one or two trailing `=` characters. -/
def stripB64Pad (cs : List Char) : List Char :=
  match cs.reverse with
  | '=' :: '=' :: r => r.reverse
  | '=' :: r => r.reverse
  | _ => cs

/-- Sextet groups back to bytes: a trailing group of two or three sextets
carries one or two bytes, left-over bits being discarded. -/
def b64DecodeGroups : List Nat → List Nat
  | s0 :: s1 :: s2 :: s3 :: rest =>
    (s0 * 4 + s1 / 16) :: (s1 % 16 * 16 + s2 / 4) :: (s2 % 4 * 64 + s3) :: b64DecodeGroups rest
  | [s0, s1, s2] => [s0 * 4 + s1 / 16, s1 % 16 * 16 + s2 / 4]
  | [s0, s1] => [s0 * 4 + s1 / 16]
  | _ => []

/-- `atob` (forgiving-base64): strip ASCII whitespace; if the length is a
multiple of 4, drop up to two trailing `=`; fail if the remaining length is
1 mod 4 or any character is outside the alphabet; decode.  The result string
has the decoded bytes as its code units. -/
def atob? (s : String) : Option String :=
  let cs := s.data.filter (fun c => !isB64Ws c)
  let cs2 := if cs.length % 4 = 0 then stripB64Pad cs else cs
  if cs2.length % 4 = 1 then none
  else
    match cs2.mapM b64Index? with
    | some sextets => some (String.mk ((b64DecodeGroups sextets).map Char.ofNat))
    | none => none

/-! ### Percent-encoding (`encodeURIComponent` / `decodeURIComponent`) -/

/-- The characters `encodeURIComponent` leaves unescaped: ASCII letters,
digits and `- _ . ! ~ * ' ( )` (39 is the apostrophe). -/
def isUriUnescaped (c : Char) : Bool :=
  c.isAlphanum || c = '-' || c = '_' || c = '.' || c = '!' || c = '~' || c = '*'
    || c.toNat = 39 || c = '(' || c = ')'

/-- UTF-8 bytes of one scalar value. -/
def utf8Bytes (c : Char) : List Nat :=
  let n := c.toNat
  if n < 0x80 then [n]
  else if n < 0x800 then [0xC0 + n / 64, 0x80 + n % 64]
  else if n < 0x10000 then [0xE0 + n / 4096, 0x80 + n / 64 % 64, 0x80 + n % 64]
  else [0xF0 + n / 0x40000, 0x80 + n / 4096 % 64, 0x80 + n / 64 % 64, 0x80 + n % 64]

/-- Uppercase hexadecimal digit (the ECMAScript Encode operation emits
uppercase escapes). -/
def hexDigitUpper (n : Nat) : Char :=
  if n < 10 then Char.ofNat (48 + n) else Char.ofNat (55 + n)

/-- `%XX` escape of one byte. -/
def pctByte (b : Nat) : List Char :=
  ['%', hexDigitUpper (b / 16), hexDigitUpper (b % 16)]

/-- One character of `encodeURIComponent` output: verbatim if unescaped,
otherwise the `%XX` escapes of its UTF-8 bytes. -/
def uriEncodeChar (c : Char) : List Char :=
  if isUriUnescaped c then [c] else ((utf8Bytes c).map pctByte).flatten

/-- `encodeURIComponent`: unescaped characters verbatim, every other character
as the `%XX` escapes of its UTF-8 bytes. -/
def encodeURIComponent (s : String) : String :=
  String.mk ((s.data.map uriEncodeChar).flatten)

/-- One `%XX` escape: the byte value and the rest of the input; `none` when
the input does not start with a well-formed escape. -/
def pctTriple? : List Char → Option (Nat × List Char)
  | '%' :: a :: b :: rest =>
    match hexVal? a, hexVal? b with
    | some ha, some hb => some (ha * 16 + hb, rest)
    | _, _ => none
  | _ => none

/-- One escaped UTF-8 sequence of the ECMAScript Decode operation: the leading
`%XX` escape determines how many continuation escapes must follow; the result
is the decoded scalar value and the rest of the input.  `none` on a malformed
escape or invalid sequence (bad leading byte, bad continuation, overlong form,
surrogate, out of range). -/
def uriEscSeq? (l : List Char) : Option (Nat × List Char) :=
  match pctTriple? l with
  | none => none
  | some (b0, r1) =>
    if b0 < 0x80 then some (b0, r1)
    else if b0 < 0xC2 then none
    else if b0 < 0xE0 then
      match pctTriple? r1 with
      | some (c1, r2) =>
        if 0x80 ≤ c1 ∧ c1 < 0xC0 then some ((b0 - 0xC0) * 64 + (c1 - 0x80), r2)
        else none
      | none => none
    else if b0 < 0xF0 then
      match pctTriple? r1 with
      | some (c1, r2) =>
        match pctTriple? r2 with
        | some (c2, r3) =>
          if 0x80 ≤ c1 ∧ c1 < 0xC0 ∧ 0x80 ≤ c2 ∧ c2 < 0xC0
              ∧ 0x800 ≤ (b0 - 0xE0) * 4096 + (c1 - 0x80) * 64 + (c2 - 0x80)
              ∧ ((b0 - 0xE0) * 4096 + (c1 - 0x80) * 64 + (c2 - 0x80) < 0xD800
                 ∨ 0xDFFF < (b0 - 0xE0) * 4096 + (c1 - 0x80) * 64 + (c2 - 0x80)) then
            some ((b0 - 0xE0) * 4096 + (c1 - 0x80) * 64 + (c2 - 0x80), r3)
          else none
        | none => none
      | none => none
    else if b0 < 0xF5 then
      match pctTriple? r1 with
      | some (c1, r2) =>
        match pctTriple? r2 with
        | some (c2, r3) =>
          match pctTriple? r3 with
          | some (c3, r4) =>
            if 0x80 ≤ c1 ∧ c1 < 0xC0 ∧ 0x80 ≤ c2 ∧ c2 < 0xC0 ∧ 0x80 ≤ c3 ∧ c3 < 0xC0
                ∧ 0x10000 ≤ (b0 - 0xF0) * 262144 + (c1 - 0x80) * 4096
                    + (c2 - 0x80) * 64 + (c3 - 0x80)
                ∧ (b0 - 0xF0) * 262144 + (c1 - 0x80) * 4096
                    + (c2 - 0x80) * 64 + (c3 - 0x80) < 0x110000 then
              some ((b0 - 0xF0) * 262144 + (c1 - 0x80) * 4096
                + (c2 - 0x80) * 64 + (c3 - 0x80), r4)
            else none
          | none => none
        | none => none
      | none => none
    else none

theorem pctTriple?_length {l : List Char} {b : Nat} {r : List Char}
    (h : pctTriple? l = some (b, r)) : r.length + 3 = l.length := by
  rw [pctTriple?.eq_def] at h
  split at h
  · rename_i a b' rest
    split at h
    · injection h with h1
      injection h1 with _ h2
      rw [h2]
      simp
    · cases h
  · cases h

theorem uriEscSeq?_length {l : List Char} {v : Nat} {r : List Char}
    (h : uriEscSeq? l = some (v, r)) : r.length < l.length := by
  rw [uriEscSeq?] at h
  split at h
  · cases h
  · rename_i b0 r1 h1
    have e1 := pctTriple?_length h1
    split at h
    · injection h with h'
      injection h' with _ h2
      rw [h2] at e1
      omega
    · split at h
      · cases h
      · split at h
        · split at h
          · rename_i c1 r2 h2
            have e2 := pctTriple?_length h2
            split at h
            · injection h with h'
              injection h' with _ h3
              rw [h3] at e2
              omega
            · cases h
          · cases h
        · split at h
          · split at h
            · rename_i c1 r2 h2
              have e2 := pctTriple?_length h2
              split at h
              · rename_i c2 r3 h3
                have e3 := pctTriple?_length h3
                split at h
                · injection h with h'
                  injection h' with _ h4
                  rw [h4] at e3
                  omega
                · cases h
              · cases h
            · cases h
          · split at h
            · split at h
              · rename_i c1 r2 h2
                have e2 := pctTriple?_length h2
                split at h
                · rename_i c2 r3 h3
                  have e3 := pctTriple?_length h3
                  split at h
                  · rename_i c3 r4 h4
                    have e4 := pctTriple?_length h4
                    split at h
                    · injection h with h'
                      injection h' with _ h5
                      rw [h5] at e4
                      omega
                    · cases h
                  · cases h
                · cases h
              · cases h
            · cases h

/-- The ECMAScript Decode operation with an empty reserved set
(`decodeURIComponent`): literal characters are copied; a `%XX` escape starts a
UTF-8 sequence whose continuation bytes must also be written as escapes; a
malformed escape or invalid sequence throws, modelled as `none`. -/
def decodeURIComponentChars : List Char → Option (List Char)
  | [] => some []
  | '%' :: t =>
    match h : uriEscSeq? ('%' :: t) with
    | some (v, rest) =>
      match decodeURIComponentChars rest with
      | some tail => some (Char.ofNat v :: tail)
      | none => none
    | none => none
  | c :: rest =>
    match decodeURIComponentChars rest with
    | some tail => some (c :: tail)
    | none => none
termination_by l => l.length
decreasing_by
  · exact uriEscSeq?_length h
  · simp

/-- `decodeURIComponent` on strings. -/
def decodeURIComponent? (s : String) : Option String :=
  (decodeURIComponentChars s.data).map String.mk

/-! ### The share codec itself -/

/-- The JSON value `{name, content, variables}` that `serializePrompt`
stringifies and `deserializePrompt` recovers. -/
def promptJson (name content : String) (vars : List String) : Json :=
  .obj [("name", .str name), ("content", .str content),
        ("variables", .arr (vars.map .str))]

/-- `serializePrompt`:
`btoa(encodeURIComponent(JSON.stringify({name, content, variables})))`.
`none` models a `btoa` range error, which `serializePrompt` does not catch;
it never occurs, `encodeURIComponent` output being ASCII. -/
def serializePrompt (name content : String) (vars : List String) : Option String :=
  btoa? (encodeURIComponent (String.mk (stringifyJson (promptJson name content vars))))

/-- `deserializePrompt`: `JSON.parse(decodeURIComponent(atob(encoded)))` with
every exception caught and turned into `null` (`none`).  The parsed value is
returned as-is: the source checks nothing about its shape. -/
def deserializePrompt (encoded : String) : Option Json :=
  (atob? encoded).bind (fun s => (decodeURIComponent? s).bind jsonParse)

/-! ## The prompt store -/

/-- One entry of `versions`. -/
structure Version where
  content : String
  timestamp : Nat
deriving DecidableEq

/-- A prompt record (the `Prompt` interface of the source; the source field
`variables` is called `vars` here, `variables` being a reserved word in
Lean). -/
structure Prompt where
  id : String
  name : String
  content : String
  vars : List String
  versions : List Version
  createdAt : Nat
  updatedAt : Nat
deriving DecidableEq

/-- The component state the claims are about: the library, the current
selection and the text persisted in local storage under the fixed key
`prompt-library`. -/
structure AppState where
  prompts : List Prompt
  selectedId : Option String
  storage : Option String
deriving DecidableEq

/-- The state at mount with nothing persisted. -/
def initialState : AppState := ⟨[], none, none⟩

/-- The JSON value of one persisted prompt record, fields in the declaration
order of the source object literals. -/
def promptRecordJson (p : Prompt) : Json :=
  .obj [("id", .str p.id), ("name", .str p.name), ("content", .str p.content),
        ("variables", .arr (p.vars.map .str)),
        ("versions", .arr (p.versions.map (fun v =>
          .obj [("content", .str v.content), ("timestamp", .num (Nat.repr v.timestamp))]))),
        ("createdAt", .num (Nat.repr p.createdAt)),
        ("updatedAt", .num (Nat.repr p.updatedAt))]

/-- `JSON.stringify(prompts)`: the exact text the persistence effect writes
(timestamps are integers below 2^53, which `JSON.stringify` prints in plain
decimal). -/
def stringifyLibrary (ps : List Prompt) : String :=
  String.mk (stringifyJson (.arr (ps.map promptRecordJson)))

/-- The persistence effect (the `useEffect` with dependency `[prompts]`):
whenever the prompt list changes it writes the serialized library to the
fixed key — but only if the list is non-empty. -/
def persist (st : AppState) : AppState :=
  if 0 < st.prompts.length then { st with storage := some (stringifyLibrary st.prompts) }
  else st

/-- `createPrompt`: fresh record with `id = Date.now().toString()`, variables
derived from the content, a single initial version, `createdAt = updatedAt =
now`, appended to the library; it becomes the selection and the persistence
effect fires. -/
def createPrompt (st : AppState) (name content : String) (now : Nat) : AppState :=
  let p : Prompt :=
    { id := Nat.repr now, name := name, content := content,
      vars := extractVariables content,
      versions := [⟨content, now⟩], createdAt := now, updatedAt := now }
  persist { st with prompts := st.prompts ++ [p], selectedId := some p.id }

/-- One prompt record updated by `savePrompt`. -/
def updatedPrompt (p : Prompt) (name content : String) (now : Nat) : Prompt :=
  { p with
    name := name, content := content,
    vars := extractVariables content,
    versions := p.versions ++ [⟨content, now⟩], updatedAt := now }

/-- `commitEdit` — the source's `savePrompt` with the active selection passed
explicitly as `id`: if no prompt has this id the function silently returns
with the state unchanged (`if (!selectedPrompt) return`); otherwise every
prompt with the id is replaced by its updated record and the persistence
effect fires. -/
def commitEdit (st : AppState) (id name content : String) (now : Nat) : AppState :=
  match st.prompts.find? (fun p => p.id == id) with
  | none => st
  | some _ =>
    persist { st with
      prompts := st.prompts.map
        (fun p => if p.id == id then updatedPrompt p name content now else p) }

/-- `deletePrompt`: remove every prompt with the id; if the deleted id was the
selection and prompts remain, the first remaining prompt is selected, and if
none remain the selection is cleared; the persistence effect fires on the new
list. -/
def deletePrompt (st : AppState) (id : String) : AppState :=
  let filtered := st.prompts.filter (fun p => p.id != id)
  let sel :=
    if st.selectedId = some id ∧ 0 < filtered.length then
      filtered.head?.map (fun p => p.id)
    else if filtered.length = 0 then none
    else st.selectedId
  persist { prompts := filtered, selectedId := sel, storage := st.storage }

/-- `loadPreset` calls `createPrompt` with the preset's fields. -/
def loadPreset (st : AppState) (name content : String) (now : Nat) : AppState :=
  createPrompt st name content now

/-- `restoreVersion` (clicking a version-history entry) only copies that
version's content into the transient editing buffers and resets the test
values; the library, the selection and the storage are untouched. -/
def restoreVersion (st : AppState) (_id : String) (_idx : Nat) : AppState := st

/-- The store operations of the specification. -/
inductive StoreOp where
  | create (name content : String) (now : Nat)
  | commit (id name content : String) (now : Nat)
  | del (id : String)
  | preset (name content : String) (now : Nat)
  | restore (id : String) (idx : Nat)

/-- One operation applied to the state. -/
def stepOp (st : AppState) : StoreOp → AppState
  | .create name content now => createPrompt st name content now
  | .commit id name content now => commitEdit st id name content now
  | .del id => deletePrompt st id
  | .preset name content now => loadPreset st name content now
  | .restore id idx => restoreVersion st id idx

/-- A trace of operations from the empty initial state. -/
def runOps (ops : List StoreOp) : AppState := ops.foldl stepOp initialState

/-- The wall-clock value an operation reads, if any. -/
def opTime? : StoreOp → Option Nat
  | .create _ _ now => some now
  | .commit _ _ _ now => some now
  | .preset _ _ now => some now
  | .del _ => none
  | .restore _ _ => none

/-- The clock readings along a trace are at least `t` and non-decreasing
(`Date.now()` never goes backwards in the model). -/
def chronFrom : Nat → List StoreOp → Bool
  | _, [] => true
  | t, op :: ops =>
    match opTime? op with
    | some n => decide (t ≤ n) && chronFrom n ops
    | none => chronFrom t ops

/-! ## RegExp pattern compilation -/

/-- Simplified model of ECMAScript `RegExp` pattern well-formedness, covering
escape sequences, character classes and group balancing — the constructs that
decide compilation of the patterns `\{\{key\}\}` built by
`substituteVariables`.  Scan state: inside an escape, inside a class, open
group depth; the pattern is rejected when a `)` has no matching `(` or the
scan ends inside an escape or class or with an unclosed group
(`SyntaxError: unterminated group`). -/
def regexScan : List Char → Bool → Bool → Nat → Bool
  | [], esc, inClass, depth => !esc && !inClass && decide (depth = 0)
  | c :: cs, esc, inClass, depth =>
    if esc then regexScan cs false inClass depth
    else if inClass then
      if c = '\\' then regexScan cs true true depth
      else if c = ']' then regexScan cs false false depth
      else regexScan cs false true depth
    else if c = '\\' then regexScan cs true inClass depth
    else if c = '[' then regexScan cs false true depth
    else if c = '(' then regexScan cs false inClass (depth + 1)
    else if c = ')' then
      match depth with
      | 0 => false
      | d + 1 => regexScan cs false inClass d
    else regexScan cs false inClass depth

/-- Well-formedness of a whole pattern. -/
def regExpPatternOk (pat : String) : Bool := regexScan pat.data false false 0

/-- The pattern text `\{\{key\}\}` that `substituteVariables` hands to
`new RegExp`. -/
def substitutionPattern (key : String) : String :=
  String.mk ('\\' :: '{' :: '\\' :: '{' :: key.data ++ ['\\', '}', '\\', '}'])

/-- The evaluation of `substituteVariables` throws iff some entry's
constructed pattern fails to compile (`new RegExp` raises `SyntaxError`,
which `substituteVariables` does not catch). -/
def substituteThrows (values : List (String × String)) : Bool :=
  values.any (fun kv => !(regExpPatternOk (substitutionPattern kv.1)))

/-! ## Store lemmas -/

theorem persist_prompts (st : AppState) : (persist st).prompts = st.prompts := by
  unfold persist
  split <;> rfl

theorem persist_storage_of_nonempty (st : AppState) (h : st.prompts ≠ []) :
    (persist st).storage = some (stringifyLibrary st.prompts) := by
  unfold persist
  rw [if_pos (List.length_pos.mpr h)]

/-- The per-prompt shape of the version history at a clock bound: non-empty,
its last entry carries the current content, timestamps non-decreasing and at
most `clock`. -/
def PromptOk (clock : Nat) (p : Prompt) : Prop :=
  p.versions ≠ [] ∧
  p.versions.getLast?.map Version.content = some p.content ∧
  List.Chain' (fun a b => a.timestamp ≤ b.timestamp) p.versions ∧
  ∀ v ∈ p.versions, v.timestamp ≤ clock

/-- All prompts of a state satisfy `PromptOk`. -/
def LibraryOk (clock : Nat) (st : AppState) : Prop :=
  ∀ p ∈ st.prompts, PromptOk clock p

theorem promptOk_mono {s t : Nat} {p : Prompt} (hst : s ≤ t) (h : PromptOk s p) :
    PromptOk t p :=
  ⟨h.1, h.2.1, h.2.2.1, fun v hv => le_trans (h.2.2.2 v hv) hst⟩

theorem libraryOk_mono {s t : Nat} {st : AppState} (hst : s ≤ t) (h : LibraryOk s st) :
    LibraryOk t st :=
  fun p hp => promptOk_mono hst (h p hp)

theorem promptOk_updated {t n : Nat} {p : Prompt} (hp : PromptOk t p) (htn : t ≤ n)
    (name content : String) : PromptOk n (updatedPrompt p name content n) := by
  obtain ⟨hne, hlast, hchain, hbound⟩ := hp
  refine ⟨by simp [updatedPrompt], ?_, ?_, ?_⟩
  · simp [updatedPrompt]
  · rw [updatedPrompt]
    simp only [List.chain'_append]
    refine ⟨hchain, List.chain'_singleton _, ?_⟩
    intro x hx y hy
    simp only [List.head?_cons, Option.mem_def, Option.some.injEq] at hy
    subst hy
    exact le_trans (hbound x (List.mem_of_mem_getLast? hx)) htn
  · intro v hv
    rw [updatedPrompt] at hv
    simp only [List.mem_append, List.mem_singleton] at hv
    rcases hv with hv | hv
    · exact le_trans (hbound v hv) htn
    · subst hv; rfl

theorem libraryOk_create {t n : Nat} {st : AppState} (h : LibraryOk t st) (htn : t ≤ n)
    (name content : String) : LibraryOk n (createPrompt st name content n) := by
  intro p hp
  rw [createPrompt] at hp
  rw [persist_prompts] at hp
  simp only [List.mem_append, List.mem_singleton] at hp
  rcases hp with hp | hp
  · exact promptOk_mono htn (h p hp)
  · subst hp
    refine ⟨by simp, by simp, List.chain'_singleton _, ?_⟩
    intro v hv
    simp only [List.mem_singleton] at hv
    subst hv
    rfl

theorem libraryOk_commit {t n : Nat} {st : AppState} (h : LibraryOk t st) (htn : t ≤ n)
    (id name content : String) : LibraryOk n (commitEdit st id name content n) := by
  rw [commitEdit]
  cases hf : st.prompts.find? (fun p => p.id == id) with
  | none => exact libraryOk_mono htn h
  | some p0 =>
    intro p hp
    rw [persist_prompts] at hp
    simp only [List.mem_map] at hp
    obtain ⟨q, hq, hqp⟩ := hp
    by_cases hid : (q.id == id) = true
    · rw [if_pos hid] at hqp
      subst hqp
      exact promptOk_updated (h q hq) htn name content
    · rw [if_neg hid] at hqp
      subst hqp
      exact promptOk_mono htn (h q hq)

theorem libraryOk_delete {t : Nat} {st : AppState} (h : LibraryOk t st) (id : String) :
    LibraryOk t (deletePrompt st id) := by
  intro p hp
  rw [deletePrompt] at hp
  rw [persist_prompts] at hp
  exact h p (List.mem_of_mem_filter hp)

theorem libraryOk_run (ops : List StoreOp) :
    ∀ t st, chronFrom t ops = true → LibraryOk t st →
      ∃ u, LibraryOk u (List.foldl stepOp st ops) := by
  induction ops with
  | nil => exact fun t st _ h => ⟨t, h⟩
  | cons op rest ih =>
    intro t st hc h
    cases op with
    | create name content now =>
      simp only [chronFrom, opTime?, Bool.and_eq_true, decide_eq_true_eq] at hc
      exact ih now _ hc.2 (libraryOk_create h hc.1 name content)
    | commit id name content now =>
      simp only [chronFrom, opTime?, Bool.and_eq_true, decide_eq_true_eq] at hc
      exact ih now _ hc.2 (libraryOk_commit h hc.1 id name content)
    | preset name content now =>
      simp only [chronFrom, opTime?, Bool.and_eq_true, decide_eq_true_eq] at hc
      exact ih now _ hc.2 (libraryOk_create h hc.1 name content)
    | del id =>
      simp only [chronFrom, opTime?] at hc
      exact ih t _ hc (libraryOk_delete h id)
    | restore id idx =>
      simp only [chronFrom, opTime?] at hc
      exact ih t _ hc h

theorem persist_storage_of_empty (st : AppState) (h : st.prompts = []) :
    (persist st).storage = st.storage := by
  unfold persist
  rw [if_neg]
  simp [h]

/-- `stringifyJsonList` of a non-empty list starts with the text of its first
element. -/
theorem stringifyJsonList_cons (x : Json) (xs : List Json) :
    ∃ t, stringifyJsonList (x :: xs) = stringifyJson x ++ t := by
  cases xs with
  | nil => exact ⟨[], by simp [stringifyJsonList]⟩
  | cons y ys => exact ⟨',' :: stringifyJsonList (y :: ys), by simp [stringifyJsonList]⟩

/-- A non-empty library and the empty library never serialize to the same
text. -/
theorem stringifyLibrary_cons_ne_nil (p : Prompt) (ps : List Prompt) :
    stringifyLibrary (p :: ps) ≠ stringifyLibrary [] := by
  intro h
  have hd := congrArg String.data h
  rw [stringifyLibrary, stringifyLibrary] at hd
  simp only [List.map] at hd
  rw [stringifyJson, stringifyJson, stringifyJsonList] at hd
  obtain ⟨t, ht⟩ := stringifyJsonList_cons (promptRecordJson p) (ps.map promptRecordJson)
  rw [ht] at hd
  have hlen := congrArg List.length hd
  rw [promptRecordJson] at hlen
  rw [stringifyJson] at hlen
  simp [List.length_append] at hlen

/-- Every prompt surviving a step either extends (by id) a prompt of the
previous state with a version-list extension, or is freshly created with a
single initial version equal to its content. -/
theorem stepOp_versions_extend (st : AppState) (op : StoreOp) :
    ∀ q ∈ (stepOp st op).prompts,
      (∃ p ∈ st.prompts, p.id = q.id ∧ p.versions <+: q.versions) ∨
      (∃ c n, q.versions = [⟨c, n⟩] ∧ q.content = c) := by
  intro q hq
  cases op with
  | create name content now =>
    rw [stepOp, createPrompt, persist_prompts] at hq
    simp only [List.mem_append, List.mem_singleton] at hq
    rcases hq with hq | hq
    · exact Or.inl ⟨q, hq, rfl, List.prefix_rfl⟩
    · subst hq
      exact Or.inr ⟨content, now, rfl, rfl⟩
  | preset name content now =>
    rw [stepOp, loadPreset, createPrompt, persist_prompts] at hq
    simp only [List.mem_append, List.mem_singleton] at hq
    rcases hq with hq | hq
    · exact Or.inl ⟨q, hq, rfl, List.prefix_rfl⟩
    · subst hq
      exact Or.inr ⟨content, now, rfl, rfl⟩
  | commit id name content now =>
    rw [stepOp, commitEdit] at hq
    cases hf : st.prompts.find? (fun p => p.id == id) with
    | none =>
      rw [hf] at hq
      exact Or.inl ⟨q, hq, rfl, List.prefix_rfl⟩
    | some p0 =>
      rw [hf, persist_prompts] at hq
      simp only [List.mem_map] at hq
      obtain ⟨r, hr, hrq⟩ := hq
      by_cases hid : (r.id == id) = true
      · rw [if_pos hid] at hrq
        subst hrq
        exact Or.inl ⟨r, hr, rfl, List.prefix_append _ _⟩
      · rw [if_neg hid] at hrq
        subst hrq
        exact Or.inl ⟨r, hr, rfl, List.prefix_rfl⟩
  | del id =>
    rw [stepOp, deletePrompt, persist_prompts] at hq
    exact Or.inl ⟨q, List.mem_of_mem_filter hq, rfl, List.prefix_rfl⟩
  | restore id idx =>
    exact Or.inl ⟨q, hq, rfl, List.prefix_rfl⟩

/-- Claim C5: along every trace of store operations whose clock readings are
non-decreasing, every prompt's version history is non-empty with its last
entry equal to the current committed content and non-decreasing timestamps;
and at every single step each surviving prompt's history is extended in
place (so the history is append-only, never reordered or truncated) while a
fresh prompt starts with the one-entry history of its creation content. -/
theorem c5_versions_append_only (ops : List StoreOp) (h : chronFrom 0 ops = true) :
    (∀ p ∈ (runOps ops).prompts,
        p.versions ≠ [] ∧
        p.versions.getLast?.map Version.content = some p.content ∧
        List.Chain' (fun a b => a.timestamp ≤ b.timestamp) p.versions) ∧
    (∀ st op, ∀ q ∈ (stepOp st op).prompts,
        (∃ p ∈ st.prompts, p.id = q.id ∧ p.versions <+: q.versions) ∨
        (∃ c n, q.versions = [⟨c, n⟩] ∧ q.content = c)) := by
  constructor
  · obtain ⟨u, hu⟩ := libraryOk_run ops 0 initialState h (by intro p hp; cases hp)
    intro p hp
    obtain ⟨h1, h2, h3, _⟩ := hu p hp
    exact ⟨h1, h2, h3⟩
  · exact stepOp_versions_extend

/-- Witness for C5 at the concrete trace create, commitEdit, restore,
delete. -/
theorem c5_versions_append_only_witness :
    chronFrom 0 [StoreOp.create "A" "x" 1, StoreOp.commit "1" "A" "y" 2,
        StoreOp.restore "1" 0, StoreOp.del "1"] = true ∧
    ((∀ p ∈ (runOps [StoreOp.create "A" "x" 1, StoreOp.commit "1" "A" "y" 2,
        StoreOp.restore "1" 0, StoreOp.del "1"]).prompts,
        p.versions ≠ [] ∧
        p.versions.getLast?.map Version.content = some p.content ∧
        List.Chain' (fun a b => a.timestamp ≤ b.timestamp) p.versions) ∧
    (∀ st op, ∀ q ∈ (stepOp st op).prompts,
        (∃ p ∈ st.prompts, p.id = q.id ∧ p.versions <+: q.versions) ∨
        (∃ c n, q.versions = [⟨c, n⟩] ∧ q.content = c))) :=
  ⟨by decide, c5_versions_append_only _ (by decide)⟩

/-- Claim C3 (amended): a create or preset always writes the serialized
current library; a commitEdit that found its id writes it; a delete writes it
when prompts remain, but a delete that empties the library skips the write,
so the previously persisted text survives unchanged. -/
theorem c3_persist_after_mutation (st : AppState) (id name content : String) (now : Nat) :
    ((createPrompt st name content now).storage
        = some (stringifyLibrary (createPrompt st name content now).prompts)) ∧
    ((loadPreset st name content now).storage
        = some (stringifyLibrary (loadPreset st name content now).prompts)) ∧
    ((st.prompts.find? (fun p => p.id == id)).isSome →
      (commitEdit st id name content now).storage
        = some (stringifyLibrary (commitEdit st id name content now).prompts)) ∧
    ((deletePrompt st id).prompts ≠ [] →
      (deletePrompt st id).storage = some (stringifyLibrary (deletePrompt st id).prompts)) ∧
    ((deletePrompt st id).prompts = [] → (deletePrompt st id).storage = st.storage) := by
  have hcreate : (createPrompt st name content now).storage
      = some (stringifyLibrary (createPrompt st name content now).prompts) := by
    rw [createPrompt, persist_prompts]
    apply persist_storage_of_nonempty
    simp
  refine ⟨hcreate, hcreate, ?_, ?_, ?_⟩
  · intro hf
    rw [commitEdit]
    cases hf2 : st.prompts.find? (fun p => p.id == id) with
    | none => rw [hf2] at hf; cases hf
    | some p0 =>
      rw [persist_prompts]
      apply persist_storage_of_nonempty
      have hmem := List.mem_of_find?_eq_some hf2
      intro hnil
      rw [List.map_eq_nil_iff] at hnil
      rw [hnil] at hmem
      cases hmem
  · intro hne
    rw [deletePrompt, persist_prompts] at hne ⊢
    exact persist_storage_of_nonempty _ hne
  · intro hnil
    rw [deletePrompt, persist_prompts] at hnil
    rw [deletePrompt]
    exact persist_storage_of_empty _ hnil

/-- Witness for C3 at a one-prompt state. -/
theorem c3_persist_after_mutation_witness :
    ((createPrompt initialState "A" "c" 1).prompts.find?
        (fun p => p.id == "1")).isSome ∧
    (deletePrompt (createPrompt initialState "A" "c" 1) "2").prompts ≠ [] ∧
    ((commitEdit (createPrompt initialState "A" "c" 1) "1" "B" "d" 2).storage
        = some (stringifyLibrary
            (commitEdit (createPrompt initialState "A" "c" 1) "1" "B" "d" 2).prompts)) ∧
    ((deletePrompt (createPrompt initialState "A" "c" 1) "2").storage
        = some (stringifyLibrary
            (deletePrompt (createPrompt initialState "A" "c" 1) "2").prompts)) := by
  refine ⟨rfl, fun h => List.noConfusion h, ?_, ?_⟩
  · exact (c3_persist_after_mutation (createPrompt initialState "A" "c" 1) "1" "B" "d" 2).2.2.1
      (by rfl)
  · exact (c3_persist_after_mutation (createPrompt initialState "A" "c" 1) "2" "B" "d" 2).2.2.2.1
      (fun h => List.noConfusion h)

/-- Claim C3 (counterexample): deleting the only prompt empties the library
but leaves the old serialized text in storage, which therefore does not equal
the serialization of the now-empty library. -/
theorem c3_counterexample_delete_to_empty :
    (deletePrompt (createPrompt initialState "A" "c" 1) "1").prompts = [] ∧
    (deletePrompt (createPrompt initialState "A" "c" 1) "1").storage ≠
      some (stringifyLibrary (deletePrompt (createPrompt initialState "A" "c" 1) "1").prompts) := by
  refine ⟨rfl, ?_⟩
  have hs : (deletePrompt (createPrompt initialState "A" "c" 1) "1").storage
      = some (stringifyLibrary
          [⟨Nat.repr 1, "A", "c", extractVariables "c", [⟨"c", 1⟩], 1, 1⟩]) := rfl
  rw [hs]
  intro h
  rw [Option.some.injEq] at h
  exact stringifyLibrary_cons_ne_nil _ _ h

/-- Claim C6 (amended): when no prompt carries the id, `commitEdit` is a
silent no-op returning the state unchanged — there is no failure channel;
when a prompt carries the id, the commit replaces name and content,
recomputes the variables from the new content, appends the new version with
the commit timestamp and sets `updatedAt`; and a delete of an absent id
leaves the prompt list unchanged. -/
theorem c6_commitEdit_notfound_behaviour (st : AppState) (id name content : String)
    (now : Nat) :
    (st.prompts.find? (fun p => p.id == id) = none →
      commitEdit st id name content now = st) ∧
    ((st.prompts.find? (fun p => p.id == id)).isSome →
      (commitEdit st id name content now).prompts
        = st.prompts.map
            (fun p => if p.id == id then updatedPrompt p name content now else p)) ∧
    (∀ p, (updatedPrompt p name content now).name = name ∧
      (updatedPrompt p name content now).content = content ∧
      (updatedPrompt p name content now).vars = extractVariables content ∧
      (updatedPrompt p name content now).versions = p.versions ++ [⟨content, now⟩] ∧
      (updatedPrompt p name content now).updatedAt = now) ∧
    (st.prompts.find? (fun p => p.id == id) = none →
      (deletePrompt st id).prompts = st.prompts) := by
  refine ⟨?_, ?_, ?_, ?_⟩
  · intro hf
    rw [commitEdit, hf]
  · intro hf
    rw [commitEdit]
    cases hf2 : st.prompts.find? (fun p => p.id == id) with
    | none => rw [hf2] at hf; cases hf
    | some p0 => rw [persist_prompts]
  · intro p
    exact ⟨rfl, rfl, rfl, rfl, rfl⟩
  · intro hf
    rw [deletePrompt, persist_prompts]
    apply List.filter_eq_self.mpr
    intro p hp
    have := List.find?_eq_none.mp hf p hp
    simpa using this

/-- Witness for C6 on a concrete one-prompt state with a present and an
absent id. -/
theorem c6_commitEdit_notfound_behaviour_witness :
    ((createPrompt initialState "A" "c" 1).prompts.find?
        (fun p => p.id == "zz") = none) ∧
    (commitEdit (createPrompt initialState "A" "c" 1) "zz" "B" "d" 2
        = createPrompt initialState "A" "c" 1) ∧
    ((deletePrompt (createPrompt initialState "A" "c" 1) "zz").prompts
        = (createPrompt initialState "A" "c" 1).prompts) :=
  ⟨rfl,
   (c6_commitEdit_notfound_behaviour (createPrompt initialState "A" "c" 1) "zz" "B" "d" 2).1 rfl,
   (c6_commitEdit_notfound_behaviour
      (createPrompt initialState "A" "c" 1) "zz" "B" "d" 2).2.2.2 rfl⟩

/-- Claim C6 (counterexample): `commitEdit` with an id absent from the
library returns the state unchanged — the source's `savePrompt` silently
returns (`if (!selectedPrompt) return`), so the caller observes a no-op and
no NotFound failure, contradicting the claimed explicit failure. -/
theorem c6_counterexample_commit_absent_is_noop :
    commitEdit (createPrompt initialState "A" "c" 1) "missing" "N" "d" 2
      = createPrompt initialState "A" "c" 1 := rfl

/-- Claim C8 (code bug): `createPrompt` takes its id from `Date.now()` alone,
so two creations in the same millisecond (clock reading 5 twice) produce the
library ids ["5", "5"], which are not pairwise distinct. -/
theorem c8_id_collision_same_millisecond :
    ((createPrompt (createPrompt initialState "A" "x" 5) "B" "y" 5).prompts.map
        (fun p => p.id)) = ["5", "5"] ∧
    ¬ ((createPrompt (createPrompt initialState "A" "x" 5) "B" "y" 5).prompts.map
        (fun p => p.id)).Nodup := by
  refine ⟨rfl, ?_⟩
  intro h
  rw [show ((createPrompt (createPrompt initialState "A" "x" 5) "B" "y" 5).prompts.map
      (fun p => p.id)) = ["5", "5"] from rfl] at h
  simp at h

/-- Claim C10 (counterexample): `substitute` is not total on every values
map — for the key "(" the constructed pattern `\{\{(\}\}` contains an
unterminated group, so `new RegExp` throws a SyntaxError that
`substituteVariables` propagates to its caller. -/
theorem c10_counterexample_throw_on_paren_key :
    substituteThrows [("(", "x")] = true ∧
    regExpPatternOk (substitutionPattern "(") = false := ⟨rfl, rfl⟩

/-- Word characters are not regex metacharacters relevant to the scan. -/
theorem regexScan_append_wordchars (s : List Char) (rest : List Char)
    (h : ∀ c ∈ s, isWordChar c = true) :
    regexScan (s ++ rest) false false 0 = regexScan rest false false 0 := by
  induction s with
  | nil => rfl
  | cons c cs ih =>
    have hc := h c (List.mem_cons_self _ _)
    have h1 : ¬ c = '\\' := fun e => absurd hc (by rw [e]; decide)
    have h2 : ¬ c = '[' := fun e => absurd hc (by rw [e]; decide)
    have h3 : ¬ c = '(' := fun e => absurd hc (by rw [e]; decide)
    have h4 : ¬ c = ')' := fun e => absurd hc (by rw [e]; decide)
    rw [List.cons_append, regexScan]
    simp only [if_neg h1, if_neg h2, if_neg h3, if_neg h4, if_false]
    exact ih (fun d hd => h d (List.mem_cons_of_mem _ hd))

/-- Claim C10 (amended): `substituteVariables` completes without throwing for
every values map whose keys consist of word characters — the only keys the
application ever produces, since test values are keyed by the identifiers
`extractVariables` returns. -/
theorem c10_substitute_total_on_word_keys (values : List (String × String))
    (h : ∀ kv ∈ values, kv.1.data.all isWordChar = true) :
    substituteThrows values = false := by
  rw [substituteThrows, List.any_eq_false]
  intro kv hkv
  have hk := List.all_eq_true.mp (h kv hkv)
  have hok : regExpPatternOk (substitutionPattern kv.1) = true := by
    show regexScan ('\\' :: '{' :: '\\' :: '{' :: (kv.1.data ++ ['\\', '}', '\\', '}']))
        false false 0 = true
    show regexScan (kv.1.data ++ ['\\', '}', '\\', '}']) false false 0 = true
    rw [regexScan_append_wordchars _ _ (fun c hc => hk c hc)]
    rfl
  rw [hok]
  simp

/-- Witness for C10 on a concrete word-character key. -/
theorem c10_substitute_total_on_word_keys_witness :
    (∀ kv ∈ [("role", "engineer")], (kv.1 : String).data.all isWordChar = true) ∧
    substituteThrows [("role", "engineer")] = false :=
  ⟨by decide, c10_substitute_total_on_word_keys _ (by decide)⟩

/-! ## Template engine lemmas -/

theorem mem_takeWhile_pred {p : Char → Bool} :
    ∀ (l : List Char) (c : Char), c ∈ l.takeWhile p → p c = true := by
  intro l
  induction l with
  | nil => intro c hc; cases hc
  | cons a t ih =>
    intro c hc
    rw [List.takeWhile_cons] at hc
    by_cases hp : p a = true
    · rw [if_pos hp] at hc
      rcases List.mem_cons.mp hc with hc | hc
      · rw [hc]; exact hp
      · exact ih c hc
    · rw [if_neg hp] at hc
      cases hc

theorem takeWhile_append_stop {p : Char → Bool} (w : List Char) (h : ∀ c ∈ w, p c = true)
    {d : Char} (hd : p d = false) (rest : List Char) :
    (w ++ d :: rest).takeWhile p = w := by
  induction w with
  | nil => simp [List.takeWhile, hd]
  | cons c cs ih =>
    rw [List.cons_append, List.takeWhile_cons, h c (List.mem_cons_self _ _)]
    rw [ih (fun x hx => h x (List.mem_cons_of_mem _ hx))]
    simp

theorem placeholderMatch?_none_of_head {c : Char} (h : c ≠ '{') (t : List Char) :
    placeholderMatch? (c :: t) = none := by
  rw [placeholderMatch?.eq_def]
  split
  · rename_i heq
    injection heq with h1 _
    exact absurd h1 h
  · rfl

theorem placeholderMatch?_none_of_second {c : Char} (h : c ≠ '{') (t : List Char) :
    placeholderMatch? ('{' :: c :: t) = none := by
  rw [placeholderMatch?.eq_def]
  split
  · rename_i heq
    injection heq with _ h2
    injection h2 with h2 _
    exact absurd h2 h
  · rfl

theorem placeholderMatch?_of_shape (w : List Char) (hne : w ≠ [])
    (hw : ∀ c ∈ w, isWordChar c = true) (rest : List Char) :
    placeholderMatch? ('{' :: '{' :: (w ++ '}' :: '}' :: rest)) = some w := by
  rw [placeholderMatch?]
  have htake : (w ++ '}' :: '}' :: rest).takeWhile isWordChar = w :=
    takeWhile_append_stop w hw (by decide) _
  rw [htake]
  rw [if_neg hne]
  have hdrop : (w ++ '}' :: '}' :: rest).drop w.length = '}' :: '}' :: rest :=
    List.drop_left _ _
  rw [hdrop]
  rfl

theorem placeholderMatch?_inv {s w : List Char} (h : placeholderMatch? s = some w) :
    w ≠ [] ∧ (∀ c ∈ w, isWordChar c = true) ∧
      ∃ rest, s = '{' :: '{' :: (w ++ '}' :: '}' :: rest) := by
  rw [placeholderMatch?.eq_def] at h
  split at h
  · rename_i t
    by_cases hnil : t.takeWhile isWordChar = []
    · rw [if_pos hnil] at h
      cases h
    · rw [if_neg hnil] at h
      split at h
      · rename_i x hdrop
        injection h with h
        subst h
        refine ⟨hnil, fun c hc => mem_takeWhile_pred t c hc, x, ?_⟩
        have ht : t = t.takeWhile isWordChar ++ t.dropWhile isWordChar :=
          (List.takeWhile_append_dropWhile _ _).symm
        have hdw : t.dropWhile isWordChar = '}' :: '}' :: x := by
          have h2 := List.drop_left (t.takeWhile isWordChar) (t.dropWhile isWordChar)
          rw [← ht] at h2
          rw [← h2, hdrop]
        conv_lhs => rw [ht, hdw]
      · cases h
  · cases h

theorem scanIdents_cons_none {c : Char} {cs : List Char}
    (h : placeholderMatch? (c :: cs) = none) :
    scanIdents (c :: cs) = scanIdents cs := by
  rw [scanIdents, h]

theorem scanIdents_cons_some {c : Char} {cs w : List Char}
    (h : placeholderMatch? (c :: cs) = some w) :
    scanIdents (c :: cs) = String.mk w :: scanIdents (cs.drop (w.length + 3)) := by
  rw [scanIdents, h]

theorem scanIdents_skip_no_brace (s : List Char) (h : ∀ c ∈ s, c ≠ '{') (rest : List Char) :
    scanIdents (s ++ rest) = scanIdents rest := by
  induction s with
  | nil => rfl
  | cons c cs ih =>
    rw [List.cons_append,
      scanIdents_cons_none (placeholderMatch?_none_of_head (h c (List.mem_cons_self _ _)) _)]
    exact ih (fun d hd => h d (List.mem_cons_of_mem _ hd))

theorem drop_block (w : List Char) (x : List Char) :
    (w ++ x).drop (w.length + 2) = x.drop 2 := by
  have h2 := List.drop_drop 2 w.length (w ++ x)
  rw [List.drop_left] at h2
  exact h2.symm

theorem scanIdents_match (w : List Char) (hne : w ≠ [])
    (hw : ∀ c ∈ w, isWordChar c = true) (rest : List Char) :
    scanIdents ('{' :: '{' :: (w ++ '}' :: '}' :: rest))
      = String.mk w :: scanIdents rest := by
  rw [scanIdents, placeholderMatch?_of_shape w hne hw rest]
  show String.mk w :: scanIdents (('{' :: (w ++ '}' :: '}' :: rest)).drop (w.length + 3)) = _
  congr 1
  show scanIdents ((w ++ '}' :: '}' :: rest).drop (w.length + 2)) = _
  rw [drop_block]
  rfl

theorem placeholderMatch?_none_within (w : List Char) (hw : ∀ c ∈ w, isWordChar c = true)
    (rest : List Char) :
    ∀ i, 1 ≤ i → i < w.length + 4 →
      placeholderMatch? (('{' :: '{' :: (w ++ '}' :: '}' :: rest)).drop i) = none := by
  intro i h1 h4
  rcases i with _ | _ | j
  · omega
  · show placeholderMatch? ('{' :: (w ++ '}' :: '}' :: rest)) = none
    cases w with
    | nil => exact placeholderMatch?_none_of_second (by decide) _
    | cons a w' =>
      have ha : a ≠ '{' := by
        intro e
        have := hw a (List.mem_cons_self _ _)
        rw [e] at this
        exact absurd this (by decide)
      exact placeholderMatch?_none_of_second ha _
  · show placeholderMatch? ((w ++ '}' :: '}' :: rest).drop j) = none
    by_cases hjw : j < w.length
    · rw [List.drop_append_of_le_length (le_of_lt hjw), List.drop_eq_getElem_cons hjw,
        List.cons_append]
      have : w[j] ≠ '{' := by
        intro e
        have hm := hw w[j] (List.getElem_mem hjw)
        rw [e] at hm
        exact absurd hm (by decide)
      exact placeholderMatch?_none_of_head this _
    · have hj2 : j < w.length + 2 := by omega
      rcases (by omega : j = w.length ∨ j = w.length + 1) with hj | hj
      · subst hj
        rw [List.drop_left]
        exact placeholderMatch?_none_of_head (by decide) _
      · subst hj
        have hdd := List.drop_drop 1 w.length (w ++ '}' :: '}' :: rest)
        rw [List.drop_left] at hdd
        rw [← hdd]
        exact placeholderMatch?_none_of_head (by decide) _

theorem word_block_eq (u w : List Char) (hu : ∀ c ∈ u, isWordChar c = true)
    (hw : ∀ c ∈ w, isWordChar c = true) (x y : List Char)
    (h : u ++ '}' :: x = w ++ '}' :: y) : u = w := by
  induction u generalizing w with
  | nil =>
    cases w with
    | nil => rfl
    | cons b w' =>
      rw [List.nil_append, List.cons_append] at h
      injection h with h1 _
      have hb := hw b (List.mem_cons_self _ _)
      rw [← h1] at hb
      exact absurd hb (by decide)
  | cons a u' ihu =>
    cases w with
    | nil =>
      rw [List.nil_append, List.cons_append] at h
      injection h with h1 _
      have ha := hu a (List.mem_cons_self _ _)
      rw [h1] at ha
      exact absurd ha (by decide)
    | cons b w' =>
      rw [List.cons_append, List.cons_append] at h
      injection h with h1 h2
      subst h1
      rw [ihu w' (fun c hc => hu c (List.mem_cons_of_mem _ hc))
        (fun c hc => hw c (List.mem_cons_of_mem _ hc)) h2]

theorem scanIdents_sound : ∀ (n : Nat) (s : List Char), s.length ≤ n →
    ∀ v ∈ scanIdents s,
      v.data ≠ [] ∧ (∀ c ∈ v.data, isWordChar c = true) ∧
        ∃ a b, s = a ++ '{' :: '{' :: (v.data ++ '}' :: '}' :: b) := by
  intro n
  induction n with
  | zero =>
    intro s hlen v hv
    rw [List.length_eq_zero.mp (Nat.le_zero.mp hlen), scanIdents] at hv
    cases hv
  | succ n ih =>
    intro s hlen v hv
    cases s with
    | nil => rw [scanIdents] at hv; cases hv
    | cons c cs =>
      cases hm : placeholderMatch? (c :: cs) with
      | none =>
        rw [scanIdents_cons_none hm] at hv
        obtain ⟨h1, h2, a, b, hdecomp⟩ :=
          ih cs (by simpa using Nat.le_of_succ_le_succ (by simpa using hlen)) v hv
        exact ⟨h1, h2, c :: a, b, by rw [List.cons_append, hdecomp]⟩
      | some w =>
        obtain ⟨hwne, hww, rest, hshape⟩ := placeholderMatch?_inv hm
        rw [scanIdents_cons_some hm] at hv
        have hdrop : cs.drop (w.length + 3) = rest := by
          have h2 : cs = '{' :: (w ++ '}' :: '}' :: rest) := by
            injection hshape
          rw [h2]
          show (w ++ '}' :: '}' :: rest).drop (w.length + 2) = rest
          rw [drop_block]
          rfl
        rw [hdrop] at hv
        rcases List.mem_cons.mp hv with hv | hv
        · subst hv
          exact ⟨hwne, hww, [], rest, hshape⟩
        · have hrlen : rest.length ≤ n := by
            have hlen2 : ('{' :: '{' :: (w ++ '}' :: '}' :: rest)).length ≤ n + 1 := by
              rw [← hshape]; exact hlen
            simp only [List.length_cons, List.length_append] at hlen2
            omega
          obtain ⟨h1, h2, a, b, hdecomp⟩ := ih rest hrlen v hv
          refine ⟨h1, h2, '{' :: '{' :: (w ++ '}' :: '}' :: a), b, ?_⟩
          rw [hshape, hdecomp]
          simp [List.append_assoc]

theorem scanIdents_complete : ∀ (n : Nat) (s : List Char), s.length ≤ n →
    ∀ (a b w : List Char), w ≠ [] → (∀ c ∈ w, isWordChar c = true) →
    s = a ++ '{' :: '{' :: (w ++ '}' :: '}' :: b) → String.mk w ∈ scanIdents s := by
  intro n
  induction n with
  | zero =>
    intro s hlen a b w _ _ heq
    rw [heq] at hlen
    simp [List.length_append] at hlen
  | succ n ih =>
    intro s hlen a b w hwne hww heq
    cases hm : placeholderMatch? s with
    | none =>
      cases a with
      | nil =>
        rw [List.nil_append] at heq
        rw [heq, placeholderMatch?_of_shape w hwne hww b] at hm
        cases hm
      | cons c a' =>
        rw [heq, List.cons_append]
        have hm2 : placeholderMatch? (c :: (a' ++ '{' :: '{' :: (w ++ '}' :: '}' :: b)))
            = none := by
          rw [heq, List.cons_append] at hm
          exact hm
        rw [scanIdents_cons_none hm2]
        apply ih (a' ++ '{' :: '{' :: (w ++ '}' :: '}' :: b)) ?_ a' b w hwne hww rfl
        have := congrArg List.length heq
        simp only [List.length_cons, List.length_append] at this hlen ⊢
        omega
    | some u =>
      obtain ⟨hune, huw, rest, hshape⟩ := placeholderMatch?_inv hm
      by_cases ha : a = []
      · subst ha
        rw [List.nil_append] at heq
        have hblock : u ++ '}' :: ('}' :: rest) = w ++ '}' :: ('}' :: b) := by
          rw [heq] at hshape
          injection hshape with _ h2
          injection h2 with _ h3
          exact h3.symm
        have huw2 : u = w := word_block_eq u w huw hww _ _ hblock
        rw [heq, scanIdents_match w hwne hww b]
        rw [← huw2]
        exact List.mem_cons_self _ _
      · have hapos : 1 ≤ a.length := by
          cases a with
          | nil => exact absurd rfl ha
          | cons x xs => simp
        have hpos : placeholderMatch? (s.drop a.length) = some w := by
          rw [heq, List.drop_left]
          exact placeholderMatch?_of_shape w hwne hww b
        have hge : u.length + 4 ≤ a.length := by
          by_contra hlt
          push_neg at hlt
          have hnone := placeholderMatch?_none_within u huw rest a.length hapos hlt
          rw [← hshape] at hnone
          rw [hpos] at hnone
          cases hnone
        have hrest : rest = s.drop (u.length + 4) := by
          rw [hshape]
          show rest = (u ++ '}' :: '}' :: rest).drop (u.length + 2)
          rw [drop_block]
          rfl
        have hrlen : rest.length ≤ n := by
          have hlen2 : ('{' :: '{' :: (u ++ '}' :: '}' :: rest)).length ≤ n + 1 := by
            rw [← hshape]; exact hlen
          simp only [List.length_cons, List.length_append] at hlen2
          omega
        have hdec : rest = a.drop (u.length + 4) ++ '{' :: '{' :: (w ++ '}' :: '}' :: b) := by
          rw [hrest, heq, List.drop_append_of_le_length hge]
        rw [hshape, scanIdents_match u hune huw rest]
        exact List.mem_cons_of_mem _ (ih rest hrlen (a.drop (u.length + 4)) b w hwne hww hdec)

theorem dedupFirst_mem : ∀ (n : Nat) (l : List String), l.length ≤ n →
    ∀ v : String, (v ∈ dedupFirst l ↔ v ∈ l) := by
  intro n
  induction n with
  | zero =>
    intro l hlen v
    rw [List.length_eq_zero.mp (Nat.le_zero.mp hlen), dedupFirst]
  | succ n ih =>
    intro l hlen v
    cases l with
    | nil => rw [dedupFirst]
    | cons x xs =>
      rw [dedupFirst]
      have hxs : (xs.filter (fun y => y ≠ x)).length ≤ n :=
        le_trans (List.length_filter_le _ _) (Nat.le_of_succ_le_succ (by simpa using hlen))
      constructor
      · intro h
        rcases List.mem_cons.mp h with h | h
        · exact h ▸ List.mem_cons_self _ _
        · exact List.mem_cons_of_mem _
            (List.mem_of_mem_filter ((ih _ hxs v).mp h))
      · intro h
        rcases List.mem_cons.mp h with h | h
        · exact h ▸ List.mem_cons_self _ _
        · by_cases hvx : v = x
          · exact hvx ▸ List.mem_cons_self _ _
          · exact List.mem_cons_of_mem _
              ((ih _ hxs v).mpr (List.mem_filter.mpr ⟨h, by simpa using hvx⟩))

theorem dedupFirst_nodup : ∀ (n : Nat) (l : List String), l.length ≤ n →
    (dedupFirst l).Nodup := by
  intro n
  induction n with
  | zero =>
    intro l hlen
    rw [List.length_eq_zero.mp (Nat.le_zero.mp hlen), dedupFirst]
    exact List.nodup_nil
  | succ n ih =>
    intro l hlen
    cases l with
    | nil => rw [dedupFirst]; exact List.nodup_nil
    | cons x xs =>
      rw [dedupFirst]
      have hxs : (xs.filter (fun y => y ≠ x)).length ≤ n :=
        le_trans (List.length_filter_le _ _) (Nat.le_of_succ_le_succ (by simpa using hlen))
      refine List.nodup_cons.mpr ⟨?_, ih _ hxs⟩
      intro hx
      have := List.mem_filter.mp ((dedupFirst_mem n _ hxs x).mp hx)
      simp at this

/-- Modelled on the specification's description of the pattern: a placeholder
is a double brace, one or more word characters — the identifier, a maximal
run — and a double brace. -/
def specPlaceholder? (s : List Char) : Option String :=
  if s.take 2 = ['{', '{'] ∧ (s.drop 2).takeWhile isWordChar ≠ []
      ∧ (s.drop (((s.drop 2).takeWhile isWordChar).length + 2)).take 2 = ['}', '}'] then
    some (String.mk ((s.drop 2).takeWhile isWordChar))
  else none

/-- Modelled on the specification: scan the text position by position, in
order, recording the identifier of every placeholder occurrence starting
there. -/
def specScan : List Char → List String
  | [] => []
  | c :: cs =>
    match specPlaceholder? (c :: cs) with
    | some w => w :: specScan cs
    | none => specScan cs

/-- `extractVariables` as the specification words it: the distinct
placeholder identifiers of the text in order of first appearance. -/
def extractVariablesSpec (s : String) : List String :=
  dedupFirst (specScan s.data)

theorem specPlaceholder?_eq (s : List Char) :
    specPlaceholder? s = (placeholderMatch? s).map String.mk := by
  cases s with
  | nil => rfl
  | cons c cs =>
    by_cases hc : c = '{'
    · subst hc
      cases cs with
      | nil => rfl
      | cons c2 t =>
        by_cases hc2 : c2 = '{'
        · subst hc2
          rw [specPlaceholder?, placeholderMatch?]
          have hd2 : ('{' :: '{' :: t).drop 2 = t := rfl
          rw [hd2]
          by_cases hnil : t.takeWhile isWordChar = []
          · rw [if_neg (by simp [hnil]), if_pos hnil]
            rfl
          · rw [if_neg hnil]
            have hdd : ('{' :: '{' :: t).drop ((t.takeWhile isWordChar).length + 2)
                = t.drop (t.takeWhile isWordChar).length := rfl
            rw [hdd]
            cases hu : t.drop (t.takeWhile isWordChar).length with
            | nil => rw [if_neg (by simp)]; rfl
            | cons d1 u1 =>
              cases u1 with
              | nil =>
                rw [if_neg (by simp)]
                have hmm : (match [d1] with
                    | '}' :: '}' :: _ => some (t.takeWhile isWordChar)
                    | _ => none) = none := by
                  split
                  · rename_i heq2
                    injection heq2 with _ h3
                    exact List.noConfusion h3
                  · rfl
                rw [hmm]
                rfl
              | cons d2 u2 =>
                by_cases h1 : d1 = '}'
                · by_cases h2 : d2 = '}'
                  · subst h1; subst h2
                    rw [if_pos (by simp [hnil])]
                    rfl
                  · rw [if_neg (by simp [h2])]
                    have : (match ('}' : Char) :: d2 :: u2 with
                        | '}' :: '}' :: _ => some (t.takeWhile isWordChar)
                        | _ => none) = none := by
                      rw [show d1 = '}' from h1] at hu
                      split
                      · rename_i heq2
                        injection heq2 with _ heq3
                        injection heq3 with heq4 _
                        exact absurd heq4 h2
                      · rfl
                    rw [show d1 = '}' from h1]
                    rw [this]
                    rfl
                · rw [if_neg (by simp [h1])]
                  have : (match d1 :: d2 :: u2 with
                      | '}' :: '}' :: _ => some (t.takeWhile isWordChar)
                      | _ => none) = none := by
                    split
                    · rename_i heq2
                      injection heq2 with heq3 _
                      exact absurd heq3 h1
                    · rfl
                  rw [this]
                  rfl
        · rw [specPlaceholder?, if_neg (by simp [hc2]),
            placeholderMatch?_none_of_second hc2]
          rfl
    · rw [specPlaceholder?, if_neg (by simp [hc]), placeholderMatch?_none_of_head hc]
      rfl

theorem specScan_drop_of_none : ∀ (k : Nat) (u : List Char),
    (∀ i, i < k → specPlaceholder? (u.drop i) = none) → k ≤ u.length →
    specScan u = specScan (u.drop k) := by
  intro k
  induction k with
  | zero => intro u _ _; rfl
  | succ k ih =>
    intro u hnone hk
    cases u with
    | nil => simp at hk
    | cons c cs =>
      have h0 : specPlaceholder? (c :: cs) = none := hnone 0 (Nat.succ_pos _)
      rw [specScan, h0]
      show specScan cs = specScan ((c :: cs).drop (k + 1))
      have hdd : (c :: cs).drop (k + 1) = cs.drop k := rfl
      rw [hdd]
      apply ih cs ?_ (by simpa using hk)
      intro i hi
      exact hnone (i + 1) (by omega)

theorem scanIdents_eq_specScan : ∀ (n : Nat) (s : List Char), s.length ≤ n →
    scanIdents s = specScan s := by
  intro n
  induction n with
  | zero =>
    intro s hlen
    rw [List.length_eq_zero.mp (Nat.le_zero.mp hlen), scanIdents, specScan]
  | succ n ih =>
    intro s hlen
    cases s with
    | nil => rw [scanIdents, specScan]
    | cons c cs =>
      cases hm : placeholderMatch? (c :: cs) with
      | none =>
        have hsp : specPlaceholder? (c :: cs) = none := by
          rw [specPlaceholder?_eq, hm]; rfl
        rw [scanIdents_cons_none hm, specScan, hsp]
        exact ih cs (by simpa using hlen)
      | some w =>
        obtain ⟨hwne, hww, rest, hshape⟩ := placeholderMatch?_inv hm
        have hsp : specPlaceholder? (c :: cs) = some (String.mk w) := by
          rw [specPlaceholder?_eq, hm]; rfl
        rw [scanIdents_cons_some hm, specScan, hsp]
        congr 1
        have hcseq : cs = '{' :: (w ++ '}' :: '}' :: rest) := by injection hshape
        have hdrop : cs.drop (w.length + 3) = rest := by
          rw [hcseq]
          show (w ++ '}' :: '}' :: rest).drop (w.length + 2) = rest
          rw [drop_block]
          rfl
        have hcslen : cs.length = w.length + 3 + rest.length := by
          rw [hcseq]
          simp [List.length_append]
          omega
        have hskip : specScan cs = specScan (cs.drop (w.length + 3)) := by
          apply specScan_drop_of_none (w.length + 3) cs ?_ (by omega)
          intro i hi
          have hnm : placeholderMatch? (('{' :: '{' :: (w ++ '}' :: '}' :: rest)).drop (i + 1))
              = none :=
            placeholderMatch?_none_within w hww rest (i + 1) (by omega) (by omega)
          rw [← hshape] at hnm
          have h2 : placeholderMatch? (cs.drop i) = none := hnm
          rw [specPlaceholder?_eq, h2]
          rfl
        rw [hdrop] at hskip
        rw [hdrop, hskip]
        apply ih rest
        have hslen : (c :: cs).length ≤ n + 1 := hlen
        simp only [List.length_cons] at hslen
        omega

/-- Claim C7: `extractVariables` agrees with the specification's description
(the distinct `{{identifier}}` occurrences, identifiers being maximal runs of
word characters, in order of first appearance), its result has no duplicates,
an identifier is returned exactly when the text contains its placeholder, and
the spec's concrete example holds.  It is a plain function of its input, so
purity is inherent in the model. -/
theorem c7_extractVariables_correct :
    (∀ s : String, extractVariables s = extractVariablesSpec s) ∧
    (∀ s : String, (extractVariables s).Nodup) ∧
    (∀ (s v : String), v ∈ extractVariables s ↔
      (v.data ≠ [] ∧ (∀ c ∈ v.data, isWordChar c = true) ∧
        ∃ a b, s.data = a ++ '{' :: '{' :: (v.data ++ '}' :: '}' :: b))) ∧
    extractVariables "\x7b\x7ba\x7d\x7d and \x7b\x7ba\x7d\x7d and \x7b\x7bb\x7d\x7d"
      = ["a", "b"] := by
  refine ⟨?_, ?_, ?_, ?_⟩
  · intro s
    rw [extractVariables, extractVariablesSpec,
      scanIdents_eq_specScan s.data.length s.data le_rfl]
  · intro s
    exact dedupFirst_nodup _ _ le_rfl
  · intro s v
    rw [extractVariables, dedupFirst_mem (scanIdents s.data).length _ le_rfl]
    constructor
    · exact fun h => scanIdents_sound s.data.length s.data le_rfl v h
    · rintro ⟨h1, h2, a, b, hdec⟩
      exact scanIdents_complete s.data.length s.data le_rfl a b v.data h1 h2 hdec
  · simp [extractVariables, scanIdents, placeholderMatch?, dedupFirst, isWordChar]

/-- Witness for C7's membership characterization at a concrete text. -/
theorem c7_extractVariables_correct_witness :
    "a" ∈ extractVariables "x\x7b\x7ba\x7d\x7dy" ∧ ("a" : String).data ≠ [] :=
  ⟨(c7_extractVariables_correct.2.2.1 "x\x7b\x7ba\x7d\x7dy" "a").mpr
      ⟨by decide, by decide, ['x'], ['y'], by decide⟩, by decide⟩

/-! ## Well-formed templates and the substitution engine -/

/-- A text with no brace characters. -/
def braceFree (s : String) : Bool :=
  s.data.all (fun c => !(c = '{') && !(c = '}'))

/-- A text with no dollar sign (code 36), so GetSubstitution copies it
verbatim. -/
def dollarFree (s : String) : Bool :=
  s.data.all (fun c => !(c.toNat = 36))

/-- A non-empty word-character identifier. -/
def isIdent (s : String) : Bool :=
  !(s = "") && s.data.all isWordChar

/-- The character list `{{key}}`. -/
def placeholderChars (key : String) : List Char :=
  '{' :: '{' :: (key.data ++ ['}', '}'])

/-- A template split into literal segments and placeholders. -/
inductive TemplatePiece where
  | lit (s : String)
  | var (name : String)

/-- The text of one piece. -/
def renderPiece : TemplatePiece → List Char
  | .lit s => s.data
  | .var n => placeholderChars n

/-- The text of a template. -/
def renderTemplate (t : List TemplatePiece) : List Char :=
  (t.map renderPiece).flatten

/-- Well-formedness: literal segments contain no braces (braces appear only
as placeholder delimiters) and placeholder names are identifiers. -/
def pieceWF : TemplatePiece → Bool
  | .lit s => braceFree s
  | .var n => isIdent n

/-- All pieces are well-formed. -/
def templateWF (t : List TemplatePiece) : Bool := t.all pieceWF

/-- Simultaneous substitution on pieces, as the specification describes
`substitute`: a placeholder whose name has a non-empty supplied value becomes
that value, every other placeholder stays verbatim. -/
def substPiece (values : List (String × String)) : TemplatePiece → TemplatePiece
  | .lit s => .lit s
  | .var n =>
    match (values.find? (fun kv => kv.1 == n)).map Prod.snd with
    | some v => if v = "" then .var n else .lit v
    | none => .var n

/-- Substitution of a single entry on pieces. -/
def substPieceKey (k v : String) : TemplatePiece → TemplatePiece
  | .lit s => .lit s
  | .var n => if n = k then (if v = "" then .var n else .lit v) else .var n

theorem getSubstitution_dollarFree (matched before after : List Char) :
    ∀ repl : List Char, (∀ c ∈ repl, ¬ c.toNat = 36) →
      getSubstitution matched before after repl = repl := by
  intro repl
  induction repl with
  | nil => intro _; rw [getSubstitution.eq_def]
  | cons c r ih =>
    intro h
    rw [getSubstitution.eq_def]
    simp only [if_neg (h c (List.mem_cons_self _ _))]
    rw [ih (fun d hd => h d (List.mem_cons_of_mem _ hd))]

theorem listStarts_append_self : ∀ (l r : List Char), listStarts l (l ++ r) = true := by
  intro l
  induction l with
  | nil => intro r; rfl
  | cons c cs ih =>
    intro r
    rw [List.cons_append, listStarts]
    simp [ih r]

theorem listStarts_iff (p : List Char) : ∀ s, listStarts p s = true ↔ ∃ t, s = p ++ t := by
  induction p with
  | nil => intro s; simp [listStarts]
  | cons c cs ih =>
    intro s
    cases s with
    | nil =>
      rw [listStarts]
      simp
    | cons d ds =>
      rw [listStarts]
      constructor
      · intro h
        rw [Bool.and_eq_true] at h
        obtain ⟨t, ht⟩ := (ih ds).mp h.2
        have hcd : c = d := by simpa using h.1
        exact ⟨t, by rw [ht, hcd, List.cons_append]⟩
      · rintro ⟨t, ht⟩
        rw [List.cons_append] at ht
        injection ht with h1 h2
        rw [Bool.and_eq_true]
        exact ⟨by simp [h1], (ih ds).mpr ⟨t, h2⟩⟩

/-- No occurrence of `pat` starts inside `s` (when `s` is followed by
`rest`). -/
def MatchFreeAt (pat s rest : List Char) : Prop :=
  ∀ i, i < s.length → listStarts pat (s.drop i ++ rest) = false

theorem jsReplAux_skip (pat repl orig : List Char) :
    ∀ (s rest : List Char) (pos : Nat), MatchFreeAt pat s rest →
      jsReplAux pat repl orig (s ++ rest) pos
        = s ++ jsReplAux pat repl orig rest (pos + s.length) := by
  intro s
  induction s with
  | nil =>
    intro rest pos _
    simp
  | cons c s' ih =>
    intro rest pos hmf
    rw [List.cons_append, jsReplAux]
    have h0 : listStarts pat (c :: (s' ++ rest)) = false := hmf 0 (by simp)
    rw [if_neg (by rw [h0]; simp)]
    rw [ih rest (pos + 1) (fun i hi => hmf (i + 1) (by simpa using Nat.succ_lt_succ hi))]
    rw [List.cons_append, List.length_cons]
    rw [show pos + (s'.length + 1) = pos + 1 + s'.length by omega]

theorem jsReplAux_match (pat repl orig : List Char) (hne : pat ≠ [])
    (rest : List Char) (pos : Nat) :
    jsReplAux pat repl orig (pat ++ rest) pos =
      getSubstitution pat (orig.take pos) (orig.drop (pos + pat.length)) repl
        ++ jsReplAux pat repl orig rest (pos + pat.length) := by
  cases pat with
  | nil => exact absurd rfl hne
  | cons p pt =>
    rw [List.cons_append, jsReplAux]
    have hself := listStarts_append_self (p :: pt) rest
    rw [List.cons_append] at hself
    rw [if_pos (by rw [hself]; rfl)]
    congr 2
    show (pt ++ rest).drop pt.length = rest
    rw [List.drop_left]

theorem listStarts_false_head {pt : List Char} {c : Char} (h : c ≠ '{') (x : List Char) :
    listStarts ('{' :: pt) (c :: x) = false := by
  rw [listStarts]
  have : ¬ ('{' : Char) = c := fun e => h e.symm
  simp [this]

theorem matchFree_of_no_brace {k : String} (s : List Char) (h : ∀ c ∈ s, ¬ c = '{')
    (rest : List Char) : MatchFreeAt (placeholderChars k) s rest := by
  intro i hi
  rw [List.drop_eq_getElem_cons hi, List.cons_append]
  exact listStarts_false_head (h _ (List.getElem_mem hi)) _

theorem braceFree_no_open {s : String} (h : braceFree s = true) :
    ∀ c ∈ s.data, ¬ c = '{' := by
  intro c hc
  have h2 := List.all_eq_true.mp h c hc
  simp only [Bool.and_eq_true, Bool.not_eq_true'] at h2
  exact of_decide_eq_false h2.1

theorem braceFree_no_close {s : String} (h : braceFree s = true) :
    ∀ c ∈ s.data, ¬ c = '}' := by
  intro c hc
  have h2 := List.all_eq_true.mp h c hc
  simp only [Bool.and_eq_true, Bool.not_eq_true'] at h2
  exact of_decide_eq_false h2.2

theorem isIdent_parts {s : String} (h : isIdent s = true) :
    s.data ≠ [] ∧ ∀ c ∈ s.data, isWordChar c = true := by
  rw [isIdent, Bool.and_eq_true] at h
  refine ⟨?_, List.all_eq_true.mp h.2⟩
  intro hnil
  have hs : s = "" := by
    cases s with
    | mk l =>
      have hl : l = [] := hnil
      rw [hl]
  rw [hs] at h
  simp at h

theorem word_no_brace {s : String} (h : ∀ c ∈ s.data, isWordChar c = true) :
    ∀ c ∈ s.data, ¬ c = '{' := by
  intro c hc he
  have h2 := h c hc
  rw [he] at h2
  exact absurd h2 (by decide)

theorem matchFree_var (k j : String) (hk : isIdent k = true) (hj : isIdent j = true)
    (hne : j ≠ k) (rest : List Char) :
    MatchFreeAt (placeholderChars k) (placeholderChars j) rest := by
  obtain ⟨hknil, hkw⟩ := isIdent_parts hk
  obtain ⟨hjnil, hjw⟩ := isIdent_parts hj
  intro i hi
  rcases i with _ | _ | m
  · -- position 0: a full-prefix match would make the identifiers equal
    rw [List.drop_zero]
    by_contra hcon
    rw [Bool.not_eq_false] at hcon
    obtain ⟨tl, htl⟩ := (listStarts_iff _ _).mp hcon
    simp only [placeholderChars, List.cons_append, List.append_assoc,
      List.nil_append] at htl
    injection htl with _ h2
    injection h2 with _ h3
    have hjk : j.data = k.data := word_block_eq j.data k.data hjw hkw _ _ h3
    apply hne
    cases j with
    | mk jd =>
      cases k with
      | mk kd =>
        have : jd = kd := hjk
        rw [this]
  · -- position 1: after the first text character comes an identifier
    -- character, not the second opening brace the pattern requires
    show listStarts (placeholderChars k) (('{' :: (j.data ++ ['}', '}'])) ++ rest) = false
    cases hjd : j.data with
    | nil => exact absurd hjd hjnil
    | cons a jd' =>
      have ha : a ≠ '{' := by
        intro e
        have hx := hjw a (by rw [hjd]; exact List.mem_cons_self _ _)
        rw [e] at hx
        exact absurd hx (by decide)
      simp only [placeholderChars, List.cons_append]
      rw [listStarts]
      rw [listStarts_false_head ha _]
      simp
  · -- positions 2 and beyond: a word character or a closing brace, never `{`
    simp only [placeholderChars, List.length_cons, List.length_append,
      List.length_nil] at hi
    show listStarts (placeholderChars k) ((j.data ++ ['}', '}']).drop m ++ rest) = false
    by_cases hm : m < j.data.length
    · rw [List.drop_append_of_le_length (le_of_lt hm), List.drop_eq_getElem_cons hm,
        List.cons_append, List.cons_append]
      exact listStarts_false_head (word_no_brace hjw _ (List.getElem_mem hm)) _
    · rcases (by omega : m = j.data.length ∨ m = j.data.length + 1) with hmeq | hmeq
      · subst hmeq
        rw [List.drop_left, List.cons_append]
        exact listStarts_false_head (by decide) _
      · subst hmeq
        have hdd := List.drop_drop 1 j.data.length (j.data ++ ['}', '}'])
        rw [List.drop_left] at hdd
        rw [← hdd]
        show listStarts (placeholderChars k) ('}' :: ([] : List Char) ++ rest) = false
        rw [List.cons_append]
        exact listStarts_false_head (by decide) _

theorem word_not_dollar {c : Char} (h : isWordChar c = true) : ¬ c.toNat = 36 := by
  intro h36
  have hc := Char.ofNat_toNat c
  rw [h36] at hc
  rw [← hc] at h
  exact absurd h (by decide)

theorem placeholderChars_dollarFree {k : String} (hk : isIdent k = true) :
    ∀ c ∈ placeholderChars k, ¬ c.toNat = 36 := by
  obtain ⟨_, hkw⟩ := isIdent_parts hk
  intro c hc
  rw [placeholderChars] at hc
  rcases List.mem_cons.mp hc with h | hc
  · rw [h]; decide
  rcases List.mem_cons.mp hc with h | hc
  · rw [h]; decide
  rcases List.mem_append.mp hc with h | hc
  · exact word_not_dollar (hkw c h)
  rcases List.mem_cons.mp hc with h | hc
  · rw [h]; decide
  rcases List.mem_cons.mp hc with h | hc
  · rw [h]; decide
  cases hc

theorem dollarFree_chars {s : String} (h : dollarFree s = true) :
    ∀ c ∈ s.data, ¬ c.toNat = 36 := by
  intro c hc
  have h2 := List.all_eq_true.mp h c hc
  simpa using h2

theorem renderTemplate_cons (p : TemplatePiece) (t : List TemplatePiece) :
    renderTemplate (p :: t) = renderPiece p ++ renderTemplate t := by
  rw [renderTemplate, List.map_cons, List.flatten_cons]
  rfl

theorem jsReplAux_template (k val : String) (hk : isIdent k = true)
    (hval : braceFree val = true) (hvald : dollarFree val = true) :
    ∀ (t : List TemplatePiece), templateWF t = true → ∀ (orig : List Char) (pos : Nat),
      jsReplAux (placeholderChars k)
          (if val = "" then placeholderChars k else val.data) orig (renderTemplate t) pos
        = renderTemplate (t.map (substPieceKey k val)) := by
  have hrepl : ∀ c ∈ (if val = "" then placeholderChars k else val.data), ¬ c.toNat = 36 := by
    by_cases hv : val = ""
    · rw [if_pos hv]; exact placeholderChars_dollarFree hk
    · rw [if_neg hv]; exact dollarFree_chars hvald
  intro t
  induction t with
  | nil =>
    intro _ orig pos
    show jsReplAux _ _ _ (renderTemplate []) pos = renderTemplate []
    rw [renderTemplate, List.map_nil, List.flatten_nil, jsReplAux]
  | cons p t' ih =>
    intro hwf orig pos
    rw [templateWF, List.all_cons, Bool.and_eq_true] at hwf
    rw [renderTemplate_cons, List.map_cons, renderTemplate_cons]
    cases p with
    | lit s =>
      show jsReplAux _ _ orig (s.data ++ renderTemplate t') pos
          = s.data ++ renderTemplate (List.map (substPieceKey k val) t')
      rw [jsReplAux_skip _ _ _ _ _ _ (matchFree_of_no_brace _ (braceFree_no_open hwf.1) _)]
      rw [ih hwf.2 orig (pos + s.data.length)]
    | var n =>
      by_cases hn : n = k
      · subst hn
        show jsReplAux (placeholderChars n) _ orig (placeholderChars n ++ renderTemplate t') pos
            = renderPiece (substPieceKey n val (TemplatePiece.var n))
              ++ renderTemplate (List.map (substPieceKey n val) t')
        rw [substPieceKey, if_pos rfl]
        rw [jsReplAux_match _ _ _ (by rw [placeholderChars]; exact List.cons_ne_nil _ _) _ _]
        rw [getSubstitution_dollarFree _ _ _ _ hrepl]
        rw [ih hwf.2 orig (pos + (placeholderChars n).length)]
        by_cases hv : val = ""
        · rw [if_pos hv, if_pos hv]
          rfl
        · rw [if_neg hv, if_neg hv]
          rfl
      · have hjid : isIdent n = true := hwf.1
        show jsReplAux (placeholderChars k) _ orig (placeholderChars n ++ renderTemplate t') pos
            = renderPiece (substPieceKey k val (TemplatePiece.var n))
              ++ renderTemplate (List.map (substPieceKey k val) t')
        rw [substPieceKey, if_neg hn]
        rw [jsReplAux_skip _ _ _ _ _ _ (matchFree_var k n hk hjid hn _)]
        rw [ih hwf.2 orig _]
        rfl

theorem substPieceKey_WF {k val : String} (hval : braceFree val = true) :
    ∀ p, pieceWF p = true → pieceWF (substPieceKey k val p) = true := by
  intro p hp
  cases p with
  | lit s => exact hp
  | var n =>
    rw [substPieceKey]
    by_cases hn : n = k
    · rw [if_pos hn]
      by_cases hv : val = ""
      · rw [if_pos hv]; exact hp
      · rw [if_neg hv]; exact hval
    · rw [if_neg hn]; exact hp

theorem substPiece_nil (p : TemplatePiece) : substPiece [] p = p := by
  cases p with
  | lit s => rfl
  | var n => rfl

theorem substPiece_commute (k val : String) (vs : List (String × String))
    (hknotin : ∀ kv ∈ vs, kv.1 ≠ k) :
    ∀ p, substPiece vs (substPieceKey k val p) = substPiece ((k, val) :: vs) p := by
  intro p
  cases p with
  | lit s => rfl
  | var n =>
    rw [substPieceKey]
    by_cases hn : n = k
    · subst hn
      rw [if_pos rfl]
      have hfindc : ((n, val) :: vs).find? (fun kv => kv.1 == n) = some (n, val) :=
        List.find?_cons_of_pos _ (by simp)
      have hfindv : vs.find? (fun kv => kv.1 == n) = none := by
        rw [List.find?_eq_none]
        intro kv hkv
        simp [hknotin kv hkv]
      by_cases hv : val = ""
      · rw [if_pos hv]
        show substPiece vs (TemplatePiece.var n) = _
        rw [substPiece, substPiece, hfindc, hfindv]
        simp only [Option.map_some', Option.map_none']
        rw [if_pos hv]
      · rw [if_neg hv]
        show TemplatePiece.lit val = _
        rw [substPiece, hfindc]
        simp only [Option.map_some']
        rw [if_neg hv]
    · rw [if_neg hn]
      show substPiece vs (TemplatePiece.var n) = _
      rw [substPiece, substPiece]
      have hcond : ((k, val).1 == n) = false := by
        simp only [beq_eq_false_iff_ne, ne_eq]
        exact fun e => hn e.symm
      have hstep : List.find? (fun kv => kv.1 == n) ((k, val) :: vs)
          = List.find? (fun kv => kv.1 == n) vs := by
        rw [List.find?]
        rw [hcond]
      rw [hstep]

theorem substituteVariables_cons (content : String) (kv : String × String)
    (vs : List (String × String)) :
    substituteVariables content (kv :: vs)
      = substituteVariables
          (jsReplaceAll (placeholderText kv.1)
            (if kv.2 = "" then placeholderText kv.1 else kv.2) content) vs := rfl

theorem substituteVariables_data (values : List (String × String)) :
    ∀ (t : List TemplatePiece), templateWF t = true →
      (∀ kv ∈ values, isIdent kv.1 = true) →
      (values.map Prod.fst).Nodup →
      (∀ kv ∈ values, braceFree kv.2 = true ∧ dollarFree kv.2 = true) →
      (substituteVariables (String.mk (renderTemplate t)) values).data
        = renderTemplate (t.map (substPiece values)) := by
  induction values with
  | nil =>
    intro t hwf _ _ _
    show (String.mk (renderTemplate t)).data = _
    rw [List.map_congr_left (fun p _ => substPiece_nil p)]
    simp
  | cons kv vs ih =>
    intro t hwf hkeys hnodup hvals
    rw [substituteVariables_cons]
    have hkid : isIdent kv.1 = true := hkeys kv (List.mem_cons_self _ _)
    have hkbrace : braceFree kv.2 = true := (hvals kv (List.mem_cons_self _ _)).1
    have hkdollar : dollarFree kv.2 = true := (hvals kv (List.mem_cons_self _ _)).2
    have hrepl : jsReplaceAll (placeholderText kv.1)
        (if kv.2 = "" then placeholderText kv.1 else kv.2) (String.mk (renderTemplate t))
        = String.mk (renderTemplate (t.map (substPieceKey kv.1 kv.2))) := by
      rw [jsReplaceAll]
      apply congrArg
      have hdata : (if kv.2 = "" then placeholderText kv.1 else kv.2).data
          = (if kv.2 = "" then placeholderChars kv.1 else kv.2.data) := by
        by_cases hv : kv.2 = ""
        · rw [if_pos hv, if_pos hv]; rfl
        · rw [if_neg hv, if_neg hv]
      show jsReplAux (placeholderText kv.1).data
          (if kv.2 = "" then placeholderText kv.1 else kv.2).data _ (renderTemplate t) 0 = _
      rw [hdata]
      exact jsReplAux_template kv.1 kv.2 hkid hkbrace hkdollar t hwf _ 0
    rw [hrepl]
    have hwf2 : templateWF (t.map (substPieceKey kv.1 kv.2)) = true := by
      rw [templateWF, List.all_eq_true]
      intro p hp
      obtain ⟨q, hq, hqp⟩ := List.mem_map.mp hp
      rw [← hqp]
      exact substPieceKey_WF hkbrace q
        (List.all_eq_true.mp (by rw [templateWF] at hwf; exact hwf) q hq)
    have hknotin : ∀ kv2 ∈ vs, kv2.1 ≠ kv.1 := by
      intro kv2 hkv2 he
      rw [List.map_cons, List.nodup_cons] at hnodup
      exact hnodup.1 (he ▸ List.mem_map_of_mem Prod.fst hkv2)
    rw [ih (t.map (substPieceKey kv.1 kv.2)) hwf2
      (fun kv2 h2 => hkeys kv2 (List.mem_cons_of_mem _ h2))
      (by rw [List.map_cons, List.nodup_cons] at hnodup; exact hnodup.2)
      (fun kv2 h2 => hvals kv2 (List.mem_cons_of_mem _ h2))]
    rw [List.map_map]
    apply congrArg renderTemplate
    apply List.map_congr_left
    intro p _
    show substPiece vs (substPieceKey kv.1 kv.2 p) = _
    rw [substPiece_commute kv.1 kv.2 vs hknotin p]

/-- The names of the placeholders of a template. -/
def templateVarNames : List TemplatePiece → List String :=
  List.filterMap (fun p => match p with | .var n => some n | .lit _ => none)

theorem scanIdents_render : ∀ (t : List TemplatePiece), templateWF t = true →
    scanIdents (renderTemplate t) = templateVarNames t := by
  intro t
  induction t with
  | nil =>
    intro _
    show scanIdents (renderTemplate []) = _
    rw [renderTemplate, List.map_nil, List.flatten_nil, scanIdents]
    rfl
  | cons p t' ih =>
    intro hwf
    rw [templateWF, List.all_cons, Bool.and_eq_true] at hwf
    rw [renderTemplate_cons]
    cases p with
    | lit s =>
      show scanIdents (s.data ++ renderTemplate t') = _
      rw [scanIdents_skip_no_brace s.data (braceFree_no_open hwf.1) _]
      exact ih hwf.2
    | var n =>
      obtain ⟨hnnil, hnw⟩ := isIdent_parts hwf.1
      show scanIdents (placeholderChars n ++ renderTemplate t') = _
      simp only [placeholderChars, List.cons_append, List.append_assoc, List.nil_append]
      rw [scanIdents_match n.data hnnil hnw (renderTemplate t')]
      rw [ih hwf.2]
      rfl

theorem substPiece_WF (values : List (String × String))
    (hvals : ∀ kv ∈ values, braceFree kv.2 = true) :
    ∀ p, pieceWF p = true → pieceWF (substPiece values p) = true := by
  intro p hp
  cases p with
  | lit s => exact hp
  | var n =>
    rw [substPiece]
    cases hf : values.find? (fun kv => kv.1 == n) with
    | none => exact hp
    | some kvf =>
      simp only [Option.map_some']
      by_cases hv : kvf.2 = ""
      · rw [if_pos hv]; exact hp
      · rw [if_neg hv]
        exact hvals kvf (List.mem_of_find?_eq_some hf)

/-- Claim C1 (amended): on a well-formed template — braces occur only as
placeholder delimiters — and a values map whose keys are distinct
word-character identifiers and whose values contain no brace and no dollar
sign, `substituteVariables` performs exactly the simultaneous substitution
the specification describes: every placeholder whose name has a non-empty
value becomes exactly that value (all occurrences), a placeholder whose
value is empty or absent stays verbatim, and entries without a placeholder
change nothing; the specification's concrete example holds. -/
theorem c1_substitute_on_wf_templates (t : List TemplatePiece)
    (values : List (String × String)) (hwf : templateWF t = true)
    (hkeys : ∀ kv ∈ values, isIdent kv.1 = true)
    (hnodup : (values.map Prod.fst).Nodup)
    (hvals : ∀ kv ∈ values, braceFree kv.2 = true ∧ dollarFree kv.2 = true) :
    substituteVariables (String.mk (renderTemplate t)) values
      = String.mk (renderTemplate (t.map (substPiece values))) ∧
    substituteVariables "Hi \x7b\x7bname\x7d\x7d, your \x7b\x7bitem\x7d\x7d shipped."
        [("name", "Ana"), ("item", "")]
      = "Hi Ana, your \x7b\x7bitem\x7d\x7d shipped." := by
  constructor
  · exact congrArg String.mk (substituteVariables_data values t hwf hkeys hnodup hvals)
  · simp [substituteVariables, jsReplaceAll, jsReplAux, getSubstitution, listStarts,
      placeholderText]

/-- Witness for C1 at the specification's example template. -/
theorem c1_substitute_on_wf_templates_witness :
    templateWF [TemplatePiece.lit "Hi ", TemplatePiece.var "name",
        TemplatePiece.lit ", your ", TemplatePiece.var "item",
        TemplatePiece.lit " shipped."] = true ∧
    substituteVariables
        (String.mk (renderTemplate [TemplatePiece.lit "Hi ", TemplatePiece.var "name",
          TemplatePiece.lit ", your ", TemplatePiece.var "item",
          TemplatePiece.lit " shipped."]))
        [("name", "Ana"), ("item", "")]
      = String.mk (renderTemplate
          ([TemplatePiece.lit "Hi ", TemplatePiece.var "name",
            TemplatePiece.lit ", your ", TemplatePiece.var "item",
            TemplatePiece.lit " shipped."].map
            (substPiece [("name", "Ana"), ("item", "")]))) :=
  ⟨by decide,
   (c1_substitute_on_wf_templates _ [("name", "Ana"), ("item", "")]
      (by decide) (by decide) (by decide) (by decide)).1⟩

/-- Claim C1 (counterexample): the replacement is not always exactly the
supplied value — JavaScript string replacement interprets `$&` as the
matched substring, so substituting the value "$&" for `a` in `{{a}}` yields
`{{a}}` again instead of the literal value. -/
theorem c1_counterexample_dollar_escape :
    substituteVariables "\x7b\x7ba\x7d\x7d" [("a", "$&")] = "\x7b\x7ba\x7d\x7d" ∧
    substituteVariables "\x7b\x7ba\x7d\x7d" [("a", "$&")] ≠ "$&" := by
  have h : substituteVariables "\x7b\x7ba\x7d\x7d" [("a", "$&")] = "\x7b\x7ba\x7d\x7d" := by
    simp [substituteVariables, jsReplaceAll, jsReplAux, getSubstitution, listStarts,
      placeholderText]
  refine ⟨h, ?_⟩
  rw [h]
  decide

/-- Claim C9 (amended): on a well-formed template with distinct identifier
keys and brace- and dollar-free non-empty values, every variable of the
substituted text is a variable of the original text and none of the
substituted names survives. -/
theorem c9_substitute_removes_placeholders (t : List TemplatePiece)
    (values : List (String × String)) (hwf : templateWF t = true)
    (hkeys : ∀ kv ∈ values, isIdent kv.1 = true)
    (hnodup : (values.map Prod.fst).Nodup)
    (hvals : ∀ kv ∈ values, braceFree kv.2 = true ∧ dollarFree kv.2 = true)
    (hne : ∀ kv ∈ values, kv.2 ≠ "") :
    ∀ x ∈ extractVariables (substituteVariables (String.mk (renderTemplate t)) values),
      x ∈ extractVariables (String.mk (renderTemplate t)) ∧ x ∉ values.map Prod.fst := by
  intro x hx
  have hwfsub : templateWF (t.map (substPiece values)) = true := by
    rw [templateWF, List.all_eq_true]
    intro p hp
    obtain ⟨q, hq, hqp⟩ := List.mem_map.mp hp
    rw [← hqp]
    exact substPiece_WF values (fun kv h => (hvals kv h).1) q
      (List.all_eq_true.mp (by rw [templateWF] at hwf; exact hwf) q hq)
  rw [extractVariables] at hx
  have hdata : (substituteVariables (String.mk (renderTemplate t)) values).data
      = renderTemplate (t.map (substPiece values)) :=
    substituteVariables_data values t hwf hkeys hnodup hvals
  rw [hdata, scanIdents_render _ hwfsub, dedupFirst_mem _ _ le_rfl] at hx
  rw [templateVarNames, List.filterMap_map] at hx
  obtain ⟨p, hp, hfp⟩ := List.mem_filterMap.mp hx
  cases p with
  | lit s => exact Option.noConfusion hfp
  | var n =>
    cases hf : (values.find? (fun kv => kv.1 == n)).map Prod.snd with
    | some v =>
      have hvne : v ≠ "" := by
        cases hf2 : values.find? (fun kv => kv.1 == n) with
        | none => rw [hf2] at hf; cases hf
        | some kvf =>
          rw [hf2] at hf
          simp only [Option.map_some', Option.some.injEq] at hf
          rw [← hf]
          exact hne kvf (List.mem_of_find?_eq_some hf2)
      have hsp : substPiece values (TemplatePiece.var n) = TemplatePiece.lit v := by
        rw [substPiece, hf]
        show (if v = "" then TemplatePiece.var n else TemplatePiece.lit v) = _
        rw [if_neg hvne]
      rw [Function.comp_apply, hsp] at hfp
      exact Option.noConfusion hfp
    | none =>
      have hsp : substPiece values (TemplatePiece.var n) = TemplatePiece.var n := by
        rw [substPiece, hf]
      rw [Function.comp_apply, hsp] at hfp
      have hxn : n = x := by
        injection hfp
      subst hxn
      constructor
      · rw [extractVariables, dedupFirst_mem _ _ le_rfl, scanIdents_render t hwf]
        exact List.mem_filterMap.mpr ⟨TemplatePiece.var n, hp, rfl⟩
      · intro hmem
        obtain ⟨kv2, hkv2, hk2⟩ := List.mem_map.mp hmem
        have hfnone : values.find? (fun kv => kv.1 == n) = none :=
          Option.map_eq_none'.mp hf
        have hnot := List.find?_eq_none.mp hfnone kv2 hkv2
        apply hnot
        simp [hk2]

/-- Claim C9 (counterexample): with content `{{x{{a}}y}}` and the non-empty
value map `{a: "b"}`, substitution produces `{{xby}}`, whose variable `xby`
is neither a variable of the original content (those are just `a`) nor a
substituted name — substitution manufactured a brand-new placeholder. -/
theorem c9_counterexample_new_placeholder :
    (∀ kv ∈ [("a", "b")], (kv.2 : String) ≠ "") ∧
    "xby" ∈ extractVariables
      (substituteVariables "\x7b\x7bx\x7b\x7ba\x7d\x7dy\x7d\x7d" [("a", "b")]) ∧
    "xby" ∉ extractVariables "\x7b\x7bx\x7b\x7ba\x7d\x7dy\x7d\x7d" := by
  have h : substituteVariables "\x7b\x7bx\x7b\x7ba\x7d\x7dy\x7d\x7d" [("a", "b")]
      = "\x7b\x7bxby\x7d\x7d" := by
    simp [substituteVariables, jsReplaceAll, jsReplAux, getSubstitution, listStarts,
      placeholderText]
  have h2 : extractVariables "\x7b\x7bxby\x7d\x7d" = ["xby"] := by
    simp [extractVariables, scanIdents, placeholderMatch?, dedupFirst, isWordChar]
  have h3 : extractVariables "\x7b\x7bx\x7b\x7ba\x7d\x7dy\x7d\x7d" = ["a"] := by
    simp [extractVariables, scanIdents, placeholderMatch?, dedupFirst, isWordChar]
  refine ⟨by decide, ?_, ?_⟩
  · rw [h, h2]
    exact List.mem_cons_self _ _
  · rw [h3]
    decide

/-- Witness for C9 on a two-placeholder template with one substituted
name. -/
theorem c9_substitute_removes_placeholders_witness :
    templateWF [TemplatePiece.var "a", TemplatePiece.var "b"] = true ∧
    ("b" ∈ extractVariables
        (String.mk (renderTemplate [TemplatePiece.var "a", TemplatePiece.var "b"])) ∧
      "b" ∉ [("a", "x")].map Prod.fst) := by
  refine ⟨by decide, ?_⟩
  apply c9_substitute_removes_placeholders
      [TemplatePiece.var "a", TemplatePiece.var "b"] [("a", "x")]
      (by decide) (by decide) (by decide) (by decide) (by decide) "b"
  have hr : String.mk (renderTemplate [TemplatePiece.var "a", TemplatePiece.var "b"])
      = "\x7b\x7ba\x7d\x7d\x7b\x7bb\x7d\x7d" := by
    simp [renderTemplate, renderPiece, placeholderChars]
  rw [hr]
  have h : substituteVariables "\x7b\x7ba\x7d\x7d\x7b\x7bb\x7d\x7d" [("a", "x")]
      = "x\x7b\x7bb\x7d\x7d" := by
    simp [substituteVariables, jsReplaceAll, jsReplAux, getSubstitution, listStarts,
      placeholderText]
  rw [h]
  have h2 : extractVariables "x\x7b\x7bb\x7d\x7d" = ["b"] := by
    simp [extractVariables, scanIdents, placeholderMatch?, dedupFirst, isWordChar]
  rw [h2]
  exact List.mem_cons_self _ _

/-! ## Base64 round trip -/

/-- The sextet values of the base64 text, without padding. -/
def b64Sextets : List Nat → List Nat
  | a :: b :: c :: rest =>
    a / 4 :: (a % 4 * 16 + b / 16) :: (b % 16 * 4 + c / 64) :: c % 64 :: b64Sextets rest
  | [a, b] => [a / 4, a % 4 * 16 + b / 16, b % 16 * 4]
  | [a] => [a / 4, a % 4 * 16]
  | [] => []

/-- The padding of the base64 text. -/
def b64Pad (bs : List Nat) : List Char :=
  match bs.length % 3 with
  | 0 => []
  | 1 => ['=', '=']
  | _ => ['=']

theorem b64Char_mem_or_default (n : Nat) :
    b64Char n ∈ b64Alphabet ∨ b64Char n = 'A' := by
  rw [b64Char]
  by_cases h : n < b64Alphabet.length
  · left
    rw [List.getD_eq_getElem?_getD, List.getElem?_eq_getElem h]
    exact List.getElem_mem h
  · right
    exact List.getD_eq_default _ _ (by omega)

theorem b64Char_not_ws (n : Nat) : isB64Ws (b64Char n) = false := by
  rcases b64Char_mem_or_default n with h | h
  · have hall : ∀ c ∈ b64Alphabet, isB64Ws c = false := by decide
    exact hall _ h
  · rw [h]
    decide

theorem b64Char_ne_pad (n : Nat) : ¬ b64Char n = '=' := by
  rcases b64Char_mem_or_default n with h | h
  · have hall : ∀ c ∈ b64Alphabet, ¬ c = '=' := by decide
    exact hall _ h
  · rw [h]
    decide

theorem b64Encode_split : ∀ (bs : List Nat),
    b64Encode bs = (b64Sextets bs).map b64Char ++ b64Pad bs := by
  intro bs
  induction bs using b64Sextets.induct with
  | case1 a b c rest ih =>
    rw [b64Encode, b64Sextets, List.map_cons, List.map_cons, List.map_cons, List.map_cons, ih]
    have hlen : (a :: b :: c :: rest).length % 3 = rest.length % 3 := by
      simp [List.length_cons]
      omega
    rw [b64Pad, b64Pad, hlen]
    rfl
  | case2 a b =>
    rw [b64Encode, b64Sextets, b64Pad]
    rfl
  | case3 a =>
    rw [b64Encode, b64Sextets, b64Pad]
    rfl
  | case4 =>
    rw [b64Encode, b64Sextets, b64Pad]
    rfl

theorem b64Sextets_lt (bs : List Nat) (h : ∀ b ∈ bs, b < 256) :
    ∀ v ∈ b64Sextets bs, v < 64 := by
  induction bs using b64Sextets.induct with
  | case1 a b c rest ih =>
    have ha := h a (by simp)
    have hb := h b (by simp)
    have hc := h c (by simp)
    intro v hv
    rw [b64Sextets] at hv
    rcases List.mem_cons.mp hv with hv | hv
    · omega
    rcases List.mem_cons.mp hv with hv | hv
    · omega
    rcases List.mem_cons.mp hv with hv | hv
    · omega
    rcases List.mem_cons.mp hv with hv | hv
    · omega
    · exact ih (fun x hx => h x (by simp [hx])) v hv
  | case2 a b =>
    have ha := h a (by simp)
    have hb := h b (by simp)
    intro v hv
    rw [b64Sextets] at hv
    rcases List.mem_cons.mp hv with hv | hv
    · omega
    rcases List.mem_cons.mp hv with hv | hv
    · omega
    · simp only [List.mem_singleton] at hv
      omega
  | case3 a =>
    have ha := h a (by simp)
    intro v hv
    rw [b64Sextets] at hv
    rcases List.mem_cons.mp hv with hv | hv
    · omega
    · simp only [List.mem_singleton] at hv
      omega
  | case4 =>
    intro v hv
    rw [b64Sextets] at hv
    cases hv

theorem stripB64Pad_append_core (core : List Char) (hcore : ∀ c ∈ core, ¬ c = '=') :
    ∀ pad, (pad = [] ∨ pad = ['='] ∨ pad = ['=', '=']) →
      stripB64Pad (core ++ pad) = core := by
  intro pad hpad
  rcases hpad with hp | hp | hp
  · subst hp
    rw [List.append_nil, stripB64Pad.eq_def]
    cases hrev : core.reverse with
    | nil => rfl
    | cons x xs =>
      have hxne : ¬ x = '=' := hcore x (by rw [← List.reverse_reverse core, hrev]; simp)
      split
      · rename_i heq
        injection heq with h1 _
        exact absurd h1 hxne
      · rename_i heq
        injection heq with h1 _
        exact absurd h1 hxne
      · rfl
  · subst hp
    rw [stripB64Pad.eq_def]
    have hrev : (core ++ ['=']).reverse = '=' :: core.reverse := by simp
    rw [hrev]
    cases hrc : core.reverse with
    | nil =>
      have hc0 : core = [] := by
        rw [← List.reverse_reverse core, hrc]
        rfl
      rw [hc0]
      rfl
    | cons x xs =>
      have hxne : ¬ x = '=' := hcore x (by rw [← List.reverse_reverse core, hrc]; simp)
      split
      · rename_i heq
        injection heq with _ h2
        injection h2 with h3 _
        exact absurd h3 hxne
      · rename_i heq
        injection heq with _ h2
        rw [← h2, ← hrc, List.reverse_reverse]
      · rename_i hno
        exact absurd rfl (hno (x :: xs))
  · subst hp
    rw [stripB64Pad.eq_def]
    have hrev : (core ++ ['=', '=']).reverse = '=' :: '=' :: core.reverse := by simp
    rw [hrev]
    show core.reverse.reverse = core
    rw [List.reverse_reverse]

theorem b64Index?_b64Char {n : Nat} (h : n < 64) : b64Index? (b64Char n) = some n := by
  revert h
  revert n
  decide

theorem mapM_b64Index? (sx : List Nat) (h : ∀ v ∈ sx, v < 64) :
    (sx.map b64Char).mapM b64Index? = some sx := by
  induction sx with
  | nil => rfl
  | cons v sx' ih =>
    rw [List.map_cons, List.mapM_cons, b64Index?_b64Char (h v (List.mem_cons_self _ _))]
    rw [ih (fun x hx => h x (List.mem_cons_of_mem _ hx))]
    rfl

theorem b64DecodeGroups_sextets (bs : List Nat) (h : ∀ b ∈ bs, b < 256) :
    b64DecodeGroups (b64Sextets bs) = bs := by
  induction bs using b64Sextets.induct with
  | case1 a b c rest ih =>
    have ha := h a (by simp)
    have hb := h b (by simp)
    have hc := h c (by simp)
    rw [b64Sextets, b64DecodeGroups]
    rw [ih (fun x hx => h x (by simp [hx]))]
    congr 1
    · omega
    congr 1
    · omega
    congr 1
    omega
  | case2 a b =>
    have ha := h a (by simp)
    have hb := h b (by simp)
    rw [b64Sextets, b64DecodeGroups]
    congr 1
    · omega
    congr 1
    omega
  | case3 a =>
    have ha := h a (by simp)
    rw [b64Sextets, b64DecodeGroups]
    congr 1
    omega
  | case4 => rfl

theorem b64Sextets_length_mod (bs : List Nat) : (b64Sextets bs).length % 4 ≠ 1 := by
  induction bs using b64Sextets.induct with
  | case1 a b c rest ih =>
    rw [b64Sextets]
    simp only [List.length_cons]
    omega
  | case2 a b => rw [b64Sextets]; simp
  | case3 a => rw [b64Sextets]; simp
  | case4 => rw [b64Sextets]; simp

theorem b64Encode_length_mod (bs : List Nat) : (b64Encode bs).length % 4 = 0 := by
  induction bs using b64Sextets.induct with
  | case1 a b c rest ih =>
    rw [b64Encode]
    simp only [List.length_cons]
    omega
  | case2 a b => rw [b64Encode]; simp
  | case3 a => rw [b64Encode]; simp
  | case4 => rw [b64Encode]; rfl

theorem b64Pad_shape (bs : List Nat) :
    b64Pad bs = [] ∨ b64Pad bs = ['='] ∨ b64Pad bs = ['=', '='] := by
  rw [b64Pad]
  rcases hm : bs.length % 3 with _ | _ | k
  · left; rfl
  · right; right; rfl
  · right; left; rfl

theorem atob?_btoa (s : String) (h : ∀ c ∈ s.data, c.toNat < 256) :
    atob? (String.mk (b64Encode (s.data.map Char.toNat))) = some s := by
  have hbytes : ∀ b ∈ s.data.map Char.toNat, b < 256 := by
    intro b hb
    obtain ⟨c, hc, hcb⟩ := List.mem_map.mp hb
    rw [← hcb]
    exact h c hc
  have hsx : ∀ v ∈ b64Sextets (s.data.map Char.toNat), v < 64 :=
    b64Sextets_lt _ hbytes
  simp only [atob?]
  have hfilter : (b64Encode (s.data.map Char.toNat)).filter (fun c => !isB64Ws c)
      = b64Encode (s.data.map Char.toNat) := by
    apply List.filter_eq_self.mpr
    intro c hc
    rw [b64Encode_split] at hc
    rcases List.mem_append.mp hc with hc | hc
    · obtain ⟨v, _, hvc⟩ := List.mem_map.mp hc
      rw [← hvc, b64Char_not_ws]
      rfl
    · rcases b64Pad_shape (s.data.map Char.toNat) with hp | hp | hp <;> rw [hp] at hc
      · cases hc
      · simp only [List.mem_singleton] at hc
        rw [hc]
        rfl
      · rcases List.mem_cons.mp hc with hc | hc
        · rw [hc]; rfl
        · simp only [List.mem_singleton] at hc
          rw [hc]
          rfl
  simp only [String.data] at hfilter ⊢
  rw [hfilter]
  rw [if_pos (b64Encode_length_mod _)]
  have hstrip : stripB64Pad (b64Encode (s.data.map Char.toNat))
      = (b64Sextets (s.data.map Char.toNat)).map b64Char := by
    rw [b64Encode_split]
    apply stripB64Pad_append_core
    · intro c hc
      obtain ⟨v, _, hvc⟩ := List.mem_map.mp hc
      rw [← hvc]
      exact b64Char_ne_pad v
    · exact b64Pad_shape _
  rw [hstrip]
  rw [if_neg (by rw [List.length_map]; exact b64Sextets_length_mod _)]
  rw [mapM_b64Index? _ hsx]
  show some (String.mk ((b64DecodeGroups (b64Sextets (s.data.map Char.toNat))).map Char.ofNat))
      = some s
  rw [b64DecodeGroups_sextets _ hbytes]
  have hback : (s.data.map Char.toNat).map Char.ofNat = s.data := by
    rw [List.map_map]
    have hid : List.map (Char.ofNat ∘ Char.toNat) s.data = List.map id s.data :=
      List.map_congr_left (fun c _ => Char.ofNat_toNat c)
    rw [hid, List.map_id]
  rw [hback]

theorem atob?_btoa? (s : String) (h : ∀ c ∈ s.data, c.toNat < 256) :
    (btoa? s).bind atob? = some s := by
  rw [btoa?, if_pos (by rw [List.all_eq_true]; intro c hc; simpa using h c hc)]
  rw [Option.some_bind]
  exact atob?_btoa s h

/-! ### The URI round trip: decoding inverts encoding, and encoded text is ASCII -/

theorem hexVal?_hexDigitUpper (m : Nat) (h : m < 16) : hexVal? (hexDigitUpper m) = some m := by
  have hall : ∀ k, k < 16 → hexVal? (hexDigitUpper k) = some k := by decide
  exact hall m h

theorem hexVal?_hexDigitLower (m : Nat) (h : m < 16) : hexVal? (hexDigitLower m) = some m := by
  have hall : ∀ k, k < 16 → hexVal? (hexDigitLower k) = some k := by decide
  exact hall m h

theorem pctTriple?_pctByte (b : Nat) (hb : b < 256) (rest : List Char) :
    pctTriple? (pctByte b ++ rest) = some (b, rest) := by
  have hdm : b / 16 * 16 + b % 16 = b := by omega
  simp only [pctByte, List.cons_append, List.nil_append]
  rw [pctTriple?]
  rw [hexVal?_hexDigitUpper (b / 16) (by omega), hexVal?_hexDigitUpper (b % 16) (by omega)]
  show some (b / 16 * 16 + b % 16, rest) = some (b, rest)
  rw [hdm]

theorem uriEscSeq?_encode1 (b : Nat) (hb : b < 0x80) (rest : List Char) :
    uriEscSeq? (pctByte b ++ rest) = some (b, rest) := by
  rw [uriEscSeq?, pctTriple?_pctByte b (by omega) rest]
  show (if b < 0x80 then some (b, rest) else _) = some (b, rest)
  rw [if_pos hb]

theorem uriEscSeq?_encode2 (n : Nat) (h1 : 0x80 ≤ n) (h2 : n < 0x800) (rest : List Char) :
    uriEscSeq? (pctByte (0xC0 + n / 64) ++ (pctByte (0x80 + n % 64) ++ rest))
      = some (n, rest) := by
  rw [uriEscSeq?, pctTriple?_pctByte (0xC0 + n / 64) (by omega) _]
  show (if 0xC0 + n / 64 < 0x80 then _ else _) = some (n, rest)
  rw [if_neg (by omega), if_neg (by omega), if_pos (by omega)]
  rw [pctTriple?_pctByte (0x80 + n % 64) (by omega) rest]
  show (if 0x80 ≤ 0x80 + n % 64 ∧ 0x80 + n % 64 < 0xC0 then
      some ((0xC0 + n / 64 - 0xC0) * 64 + (0x80 + n % 64 - 0x80), rest) else none)
    = some (n, rest)
  rw [if_pos (by omega)]
  have : (0xC0 + n / 64 - 0xC0) * 64 + (0x80 + n % 64 - 0x80) = n := by omega
  rw [this]

theorem uriEscSeq?_encode3 (n : Nat) (h1 : 0x800 ≤ n) (h2 : n < 0x10000)
    (hs : n < 0xD800 ∨ 0xDFFF < n) (rest : List Char) :
    uriEscSeq? (pctByte (0xE0 + n / 4096)
        ++ (pctByte (0x80 + n / 64 % 64) ++ (pctByte (0x80 + n % 64) ++ rest)))
      = some (n, rest) := by
  rw [uriEscSeq?, pctTriple?_pctByte (0xE0 + n / 4096) (by omega) _]
  show (if 0xE0 + n / 4096 < 0x80 then _ else _) = some (n, rest)
  rw [if_neg (by omega), if_neg (by omega), if_neg (by omega), if_pos (by omega)]
  rw [pctTriple?_pctByte (0x80 + n / 64 % 64) (by omega) _]
  show (match pctTriple? (pctByte (0x80 + n % 64) ++ rest) with
    | some (c2, r3) => _ | none => none) = some (n, rest)
  rw [pctTriple?_pctByte (0x80 + n % 64) (by omega) rest]
  show (if 0x80 ≤ 0x80 + n / 64 % 64 ∧ 0x80 + n / 64 % 64 < 0xC0
        ∧ 0x80 ≤ 0x80 + n % 64 ∧ 0x80 + n % 64 < 0xC0
        ∧ 0x800 ≤ (0xE0 + n / 4096 - 0xE0) * 4096 + (0x80 + n / 64 % 64 - 0x80) * 64
            + (0x80 + n % 64 - 0x80)
        ∧ ((0xE0 + n / 4096 - 0xE0) * 4096 + (0x80 + n / 64 % 64 - 0x80) * 64
            + (0x80 + n % 64 - 0x80) < 0xD800
           ∨ 0xDFFF < (0xE0 + n / 4096 - 0xE0) * 4096 + (0x80 + n / 64 % 64 - 0x80) * 64
            + (0x80 + n % 64 - 0x80)) then
      some ((0xE0 + n / 4096 - 0xE0) * 4096 + (0x80 + n / 64 % 64 - 0x80) * 64
        + (0x80 + n % 64 - 0x80), rest) else none)
    = some (n, rest)
  have hv : (0xE0 + n / 4096 - 0xE0) * 4096 + (0x80 + n / 64 % 64 - 0x80) * 64
      + (0x80 + n % 64 - 0x80) = n := by omega
  rw [hv]
  rw [if_pos (by exact ⟨by omega, by omega, by omega, by omega, by omega, hs⟩)]

theorem uriEscSeq?_encode4 (n : Nat) (h1 : 0x10000 ≤ n) (h2 : n < 0x110000) (rest : List Char) :
    uriEscSeq? (pctByte (0xF0 + n / 262144)
        ++ (pctByte (0x80 + n / 4096 % 64)
          ++ (pctByte (0x80 + n / 64 % 64) ++ (pctByte (0x80 + n % 64) ++ rest))))
      = some (n, rest) := by
  rw [uriEscSeq?, pctTriple?_pctByte (0xF0 + n / 262144) (by omega) _]
  show (if 0xF0 + n / 262144 < 0x80 then _ else _) = some (n, rest)
  rw [if_neg (by omega), if_neg (by omega), if_neg (by omega), if_neg (by omega),
    if_pos (by omega)]
  rw [pctTriple?_pctByte (0x80 + n / 4096 % 64) (by omega) _]
  show (match pctTriple? (pctByte (0x80 + n / 64 % 64) ++ (pctByte (0x80 + n % 64) ++ rest)) with
    | some (c2, r3) => _ | none => none) = some (n, rest)
  rw [pctTriple?_pctByte (0x80 + n / 64 % 64) (by omega) _]
  show (match pctTriple? (pctByte (0x80 + n % 64) ++ rest) with
    | some (c3, r4) => _ | none => none) = some (n, rest)
  rw [pctTriple?_pctByte (0x80 + n % 64) (by omega) rest]
  have hv : (0xF0 + n / 262144 - 0xF0) * 262144 + (0x80 + n / 4096 % 64 - 0x80) * 4096
      + (0x80 + n / 64 % 64 - 0x80) * 64 + (0x80 + n % 64 - 0x80) = n := by omega
  show (if 0x80 ≤ 0x80 + n / 4096 % 64 ∧ 0x80 + n / 4096 % 64 < 0xC0
        ∧ 0x80 ≤ 0x80 + n / 64 % 64 ∧ 0x80 + n / 64 % 64 < 0xC0
        ∧ 0x80 ≤ 0x80 + n % 64 ∧ 0x80 + n % 64 < 0xC0
        ∧ 0x10000 ≤ (0xF0 + n / 262144 - 0xF0) * 262144 + (0x80 + n / 4096 % 64 - 0x80) * 4096
            + (0x80 + n / 64 % 64 - 0x80) * 64 + (0x80 + n % 64 - 0x80)
        ∧ (0xF0 + n / 262144 - 0xF0) * 262144 + (0x80 + n / 4096 % 64 - 0x80) * 4096
            + (0x80 + n / 64 % 64 - 0x80) * 64 + (0x80 + n % 64 - 0x80) < 0x110000 then
      some ((0xF0 + n / 262144 - 0xF0) * 262144 + (0x80 + n / 4096 % 64 - 0x80) * 4096
        + (0x80 + n / 64 % 64 - 0x80) * 64 + (0x80 + n % 64 - 0x80), rest) else none)
    = some (n, rest)
  rw [hv]
  rw [if_pos (by exact ⟨by omega, by omega, by omega, by omega, by omega, by omega,
    by omega, by omega⟩)]

theorem decodeURIComponentChars_pct (t : List Char) (v : Nat) (r : List Char)
    (h : uriEscSeq? ('%' :: t) = some (v, r)) :
    decodeURIComponentChars ('%' :: t)
      = (decodeURIComponentChars r).map (fun tail => Char.ofNat v :: tail) := by
  rw [decodeURIComponentChars]
  split
  · rename_i v' r' heq
    rw [h] at heq
    injection heq with heq'
    injection heq' with hv hr
    rw [← hv, ← hr]
    cases decodeURIComponentChars r <;> rfl
  · rename_i heq
    rw [h] at heq
    cases heq

theorem uriDecode_lit {c : Char} (hc : ¬ c = '%') (rest : List Char) :
    decodeURIComponentChars (c :: rest)
      = (decodeURIComponentChars rest).map (fun t => c :: t) := by
  rw [decodeURIComponentChars.eq_def]
  split
  · rename_i heq
    cases heq
  · rename_i t heq
    injection heq with h1 _
    exact absurd h1 hc
  · rename_i d r heq h2
    injection h2 with h1 h2'
    rw [← h1, ← h2']
    cases decodeURIComponentChars rest <;> rfl

theorem decodeURIComponentChars_seq (b : Nat) (X : List Char) (v : Nat) (r : List Char)
    (h : uriEscSeq? (pctByte b ++ X) = some (v, r)) :
    decodeURIComponentChars (pctByte b ++ X)
      = (decodeURIComponentChars r).map (fun tail => Char.ofNat v :: tail) := by
  simp only [pctByte, List.cons_append, List.nil_append] at h ⊢
  exact decodeURIComponentChars_pct _ v r h

theorem uriDecode_encodeChar (c : Char) (rest : List Char) :
    decodeURIComponentChars (uriEncodeChar c ++ rest)
      = (decodeURIComponentChars rest).map (fun t => c :: t) := by
  by_cases hu : isUriUnescaped c = true
  · rw [uriEncodeChar, if_pos hu]
    have hc : ¬ c = '%' := by
      intro he
      rw [he] at hu
      exact absurd hu (by decide)
    rw [List.cons_append, List.nil_append]
    exact uriDecode_lit hc rest
  · rw [uriEncodeChar, if_neg hu]
    have hval : c.toNat < 0xD800 ∨ (0xDFFF < c.toNat ∧ c.toNat < 0x110000) := c.valid
    by_cases h1 : c.toNat < 0x80
    · simp only [utf8Bytes, if_pos h1, List.map_cons, List.map_nil, List.flatten_cons,
        List.flatten_nil, List.append_nil]
      rw [decodeURIComponentChars_seq _ _ _ _ (uriEscSeq?_encode1 c.toNat h1 rest)]
      rw [Char.ofNat_toNat]
    · by_cases h2 : c.toNat < 0x800
      · simp only [utf8Bytes, if_neg h1, if_pos h2, List.map_cons, List.map_nil,
          List.flatten_cons, List.flatten_nil, List.append_nil, List.append_assoc]
        rw [decodeURIComponentChars_seq _ _ _ _
          (uriEscSeq?_encode2 c.toNat (by omega) h2 rest)]
        rw [Char.ofNat_toNat]
      · by_cases h3 : c.toNat < 0x10000
        · have hs : c.toNat < 0xD800 ∨ 0xDFFF < c.toNat := by
            rcases hval with h | h
            · exact Or.inl h
            · exact Or.inr h.1
          simp only [utf8Bytes, if_neg h1, if_neg h2, if_pos h3, List.map_cons, List.map_nil,
            List.flatten_cons, List.flatten_nil, List.append_nil, List.append_assoc]
          rw [decodeURIComponentChars_seq _ _ _ _
            (uriEscSeq?_encode3 c.toNat (by omega) h3 hs rest)]
          rw [Char.ofNat_toNat]
        · have h4 : c.toNat < 0x110000 := by
            rcases hval with h | h
            · omega
            · exact h.2
          simp only [utf8Bytes, if_neg h1, if_neg h2, if_neg h3, List.map_cons, List.map_nil,
            List.flatten_cons, List.flatten_nil, List.append_nil, List.append_assoc]
          rw [decodeURIComponentChars_seq _ _ _ _
            (uriEscSeq?_encode4 c.toNat (by omega) h4 rest)]
          rw [Char.ofNat_toNat]

theorem decodeURIComponentChars_encodeList (l : List Char) :
    decodeURIComponentChars ((l.map uriEncodeChar).flatten) = some l := by
  induction l with
  | nil =>
    rw [List.map_nil, List.flatten_nil]
    rw [decodeURIComponentChars]
  | cons c t ih =>
    rw [List.map_cons, List.flatten_cons, uriDecode_encodeChar, ih]
    rfl

theorem decodeURIComponent?_encodeURIComponent (s : String) :
    decodeURIComponent? (encodeURIComponent s) = some s := by
  rw [decodeURIComponent?, encodeURIComponent]
  simp only [String.data]
  rw [decodeURIComponentChars_encodeList]
  rfl

theorem isAlphanum_toNat_lt (c : Char) (h : c.isAlphanum = true) : c.toNat < 256 := by
  rw [Char.isAlphanum] at h
  simp only [Bool.or_eq_true] at h
  rcases h with h | h
  · rw [Char.isAlpha] at h
    simp only [Bool.or_eq_true] at h
    rcases h with h | h
    · rw [Char.isUpper] at h
      simp only [Bool.and_eq_true, decide_eq_true_eq] at h
      have h2 : c.toNat ≤ 90 := h.2
      omega
    · rw [Char.isLower] at h
      simp only [Bool.and_eq_true, decide_eq_true_eq] at h
      have h2 : c.toNat ≤ 122 := h.2
      omega
  · rw [Char.isDigit] at h
    simp only [Bool.and_eq_true, decide_eq_true_eq] at h
    have h2 : c.toNat ≤ 57 := h.2
    omega

theorem isUriUnescaped_toNat_lt (c : Char) (h : isUriUnescaped c = true) : c.toNat < 256 := by
  rw [isUriUnescaped] at h
  simp only [Bool.or_eq_true, decide_eq_true_eq] at h
  rcases h with (((((((((h | h) | h) | h) | h) | h) | h) | h) | h) | h)
  · exact isAlphanum_toNat_lt c h
  · rw [h]; decide
  · rw [h]; decide
  · rw [h]; decide
  · rw [h]; decide
  · rw [h]; decide
  · rw [h]; decide
  · omega
  · rw [h]; decide
  · rw [h]; decide

theorem utf8Bytes_lt (c : Char) : ∀ b ∈ utf8Bytes c, b < 256 := by
  intro b hb
  have hval : c.toNat < 0xD800 ∨ (0xDFFF < c.toNat ∧ c.toNat < 0x110000) := c.valid
  have h4 : c.toNat < 0x110000 := by
    rcases hval with h | h
    · omega
    · exact h.2
  by_cases h1 : c.toNat < 0x80
  · simp only [utf8Bytes, if_pos h1, List.mem_singleton] at hb
    omega
  · by_cases h2 : c.toNat < 0x800
    · simp only [utf8Bytes, if_neg h1, if_pos h2, List.mem_cons, List.mem_singleton,
        List.not_mem_nil, or_false] at hb
      rcases hb with h | h <;> omega
    · by_cases h3 : c.toNat < 0x10000
      · simp only [utf8Bytes, if_neg h1, if_neg h2, if_pos h3, List.mem_cons,
          List.not_mem_nil, or_false] at hb
        rcases hb with h | h | h <;> omega
      · simp only [utf8Bytes, if_neg h1, if_neg h2, if_neg h3, List.mem_cons,
          List.not_mem_nil, or_false] at hb
        rcases hb with h | h | h | h <;> omega

theorem hexDigitUpper_toNat_lt (m : Nat) (h : m < 16) : (hexDigitUpper m).toNat < 256 := by
  have hall : ∀ k, k < 16 → (hexDigitUpper k).toNat < 256 := by decide
  exact hall m h

theorem uriEncodeChar_toNat_lt (c : Char) : ∀ d ∈ uriEncodeChar c, d.toNat < 256 := by
  intro d hd
  rw [uriEncodeChar] at hd
  by_cases hu : isUriUnescaped c = true
  · rw [if_pos hu] at hd
    simp only [List.mem_singleton] at hd
    rw [hd]
    exact isUriUnescaped_toNat_lt c hu
  · rw [if_neg hu] at hd
    obtain ⟨l, hl, hdl⟩ := List.mem_flatten.mp hd
    obtain ⟨b, hb, hbl⟩ := List.mem_map.mp hl
    rw [← hbl] at hdl
    have hb256 : b < 256 := utf8Bytes_lt c b hb
    rw [pctByte] at hdl
    rcases List.mem_cons.mp hdl with h | h
    · rw [h]; decide
    rcases List.mem_cons.mp h with h | h
    · rw [h]
      exact hexDigitUpper_toNat_lt _ (by omega)
    · simp only [List.mem_singleton] at h
      rw [h]
      exact hexDigitUpper_toNat_lt _ (by omega)

theorem encodeURIComponent_toNat_lt (s : String) :
    ∀ c ∈ (encodeURIComponent s).data, c.toNat < 256 := by
  rw [encodeURIComponent]
  simp only [String.data]
  intro c hc
  obtain ⟨l, hl, hcl⟩ := List.mem_flatten.mp hc
  obtain ⟨d, _, hdl⟩ := List.mem_map.mp hl
  rw [← hdl] at hcl
  exact uriEncodeChar_toNat_lt d c hcl

/-! ### The JSON round trip for the share payload -/

theorem psb_esc (r : List Char) (ch : Char) (rest : List Char)
    (h : jsonEscape? r = some (ch, rest)) :
    parseStringBody ('\\' :: r)
      = (parseStringBody rest).map (fun p => (ch :: p.1, p.2)) := by
  rw [parseStringBody]
  split
  · rename_i ch' rest' heq
    rw [h] at heq
    injection heq with heq'
    injection heq' with h1 h2
    rw [← h1, ← h2]
    cases hp : parseStringBody rest
    · rfl
    · rename_i p
      obtain ⟨s, r2⟩ := p
      rfl
  · rename_i heq
    rw [h] at heq
    cases heq

theorem psb_lit {c : Char} (h1 : ¬ c = '"') (h2 : ¬ c = '\\') (h3 : ¬ c.toNat < 32)
    (rest : List Char) :
    parseStringBody (c :: rest)
      = (parseStringBody rest).map (fun p => (c :: p.1, p.2)) := by
  rw [parseStringBody.eq_def]
  split
  · rename_i heq
    cases heq
  · rename_i t heq
    injection heq with ha _
    exact absurd ha h1
  · rename_i t heq
    injection heq with ha _
    exact absurd ha h2
  · rename_i d r heq hne
    injection hne with ha hb
    rw [← ha, ← hb]
    rw [if_neg h3]
    cases hp : parseStringBody rest
    · rfl
    · rename_i p
      obtain ⟨s, r2⟩ := p
      rfl

theorem psb_quoteChar (c : Char) (rest : List Char) :
    parseStringBody (quoteJsonChar c ++ rest)
      = (parseStringBody rest).map (fun p => (c :: p.1, p.2)) := by
  rw [quoteJsonChar]
  by_cases hq : c = '"'
  · rw [if_pos hq, hq]
    have he : jsonEscape? ('"' :: rest) = some ('"', rest) := by
      rw [jsonEscape?.eq_def]; rfl
    rw [List.cons_append, List.cons_append, List.nil_append]
    rw [psb_esc _ _ _ he]
  · rw [if_neg hq]
    by_cases hb : c = '\\'
    · rw [if_pos hb, hb]
      have he : jsonEscape? ('\\' :: rest) = some ('\\', rest) := by
        rw [jsonEscape?.eq_def]; rfl
      rw [List.cons_append, List.cons_append, List.nil_append]
      rw [psb_esc _ _ _ he]
    · rw [if_neg hb]
      by_cases h8 : c.toNat = 8
      · rw [if_pos h8]
        have hc : c = Char.ofNat 8 := by
          rw [← h8]
          exact (Char.ofNat_toNat c).symm
        have he : jsonEscape? ('b' :: rest) = some (Char.ofNat 8, rest) := by
          rw [jsonEscape?.eq_def]; rfl
        rw [List.cons_append, List.cons_append, List.nil_append]
        rw [psb_esc _ _ _ he, ← hc]
      · rw [if_neg h8]
        by_cases h9 : c.toNat = 9
        · rw [if_pos h9]
          have hc : c = Char.ofNat 9 := by
            rw [← h9]
            exact (Char.ofNat_toNat c).symm
          have he : jsonEscape? ('t' :: rest) = some (Char.ofNat 9, rest) := by
            rw [jsonEscape?.eq_def]; rfl
          rw [List.cons_append, List.cons_append, List.nil_append]
          rw [psb_esc _ _ _ he, ← hc]
        · rw [if_neg h9]
          by_cases h10 : c.toNat = 10
          · rw [if_pos h10]
            have hc : c = Char.ofNat 10 := by
              rw [← h10]
              exact (Char.ofNat_toNat c).symm
            have he : jsonEscape? ('n' :: rest) = some (Char.ofNat 10, rest) := by
              rw [jsonEscape?.eq_def]; rfl
            rw [List.cons_append, List.cons_append, List.nil_append]
            rw [psb_esc _ _ _ he, ← hc]
          · rw [if_neg h10]
            by_cases h12 : c.toNat = 12
            · rw [if_pos h12]
              have hc : c = Char.ofNat 12 := by
                rw [← h12]
                exact (Char.ofNat_toNat c).symm
              have he : jsonEscape? ('f' :: rest) = some (Char.ofNat 12, rest) := by
                rw [jsonEscape?.eq_def]; rfl
              rw [List.cons_append, List.cons_append, List.nil_append]
              rw [psb_esc _ _ _ he, ← hc]
            · rw [if_neg h12]
              by_cases h13 : c.toNat = 13
              · rw [if_pos h13]
                have hc : c = Char.ofNat 13 := by
                  rw [← h13]
                  exact (Char.ofNat_toNat c).symm
                have he : jsonEscape? ('r' :: rest) = some (Char.ofNat 13, rest) := by
                  rw [jsonEscape?.eq_def]; rfl
                rw [List.cons_append, List.cons_append, List.nil_append]
                rw [psb_esc _ _ _ he, ← hc]
              · rw [if_neg h13]
                by_cases h32 : c.toNat < 32
                · rw [if_pos h32]
                  have hq0 : hquad? '0' '0' (hexDigitLower (c.toNat / 16))
                      (hexDigitLower (c.toNat % 16)) = some c.toNat := by
                    rw [hquad?]
                    rw [show hexVal? '0' = some 0 from by decide]
                    rw [hexVal?_hexDigitLower _ (by omega), hexVal?_hexDigitLower _ (by omega)]
                    show some (((0 * 16 + 0) * 16 + c.toNat / 16) * 16 + c.toNat % 16)
                      = some c.toNat
                    congr 1
                    omega
                  have he : jsonEscape? ('u' :: '0' :: '0' :: hexDigitLower (c.toNat / 16)
                      :: hexDigitLower (c.toNat % 16) :: rest)
                      = some (Char.ofNat c.toNat, rest) := by
                    rw [jsonEscape?]
                    rw [hq0]
                    show (if c.toNat < 0xD800 ∨ 0xDFFF < c.toNat then
                        some (Char.ofNat c.toNat, rest) else _)
                      = some (Char.ofNat c.toNat, rest)
                    rw [if_pos (Or.inl (by omega))]
                  simp only [List.cons_append, List.nil_append]
                  rw [psb_esc _ _ _ he, Char.ofNat_toNat]
                · rw [if_neg h32]
                  rw [List.cons_append, List.nil_append]
                  exact psb_lit hq hb h32 rest

theorem psb_flatten (l : List Char) (rest : List Char) :
    parseStringBody ((l.map quoteJsonChar).flatten ++ '"' :: rest) = some (l, rest) := by
  induction l with
  | nil =>
    rw [List.map_nil, List.flatten_nil, List.nil_append]
    rw [parseStringBody]
  | cons c t ih =>
    rw [List.map_cons, List.flatten_cons, List.append_assoc, psb_quoteChar, ih]
    rfl

theorem pjv_str (fuel : Nat) (s : String) (tail : List Char) :
    parseJsonValue (fuel + 1) (quoteJsonString s ++ tail) = some (.str s, tail) := by
  rw [quoteJsonString]
  rw [List.cons_append, List.cons_append, List.append_assoc, List.singleton_append]
  rw [parseJsonValue]
  rw [psb_flatten]

theorem dropWhile_ws_cons (c : Char) (hc : ¬ isJsonWs c = true) (l : List Char) :
    (c :: l).dropWhile isJsonWs = c :: l :=
  List.dropWhile_cons_of_neg hc

theorem stringifyJsonList_str_head (s : String) (l : List Json) :
    ∃ t, stringifyJsonList (Json.str s :: l) = '"' :: t := by
  obtain ⟨t, ht⟩ := stringifyJsonList_cons (Json.str s) l
  refine ⟨(s.data.map quoteJsonChar).flatten ++ ['"'] ++ t, ?_⟩
  rw [ht, stringifyJson, quoteJsonString, List.cons_append, List.cons_append]

theorem pji_strings (ss : List String) : ∀ (fuel : Nat) (tail : List Char),
    ss ≠ [] → ss.length ≤ fuel + 1 →
    parseJsonItems (fuel + 1) (stringifyJsonList (ss.map .str) ++ ']' :: tail)
      = some (ss.map .str, tail) := by
  induction ss with
  | nil =>
    intro fuel tail h _
    exact absurd rfl h
  | cons s ss' ih =>
    intro fuel tail _ hlen
    cases ss' with
    | nil =>
      rw [List.map_cons, List.map_nil, stringifyJsonList, stringifyJson]
      rw [parseJsonItems]
      rw [pjv_str]
      show (match (']' :: tail).dropWhile isJsonWs with
        | ',' :: rest2 =>
          match parseJsonItems fuel (rest2.dropWhile isJsonWs) with
          | some (xs, rest3) => some (Json.str s :: xs, rest3)
          | none => none
        | ']' :: rest2 => some ([Json.str s], rest2)
        | _ => none) = some ([Json.str s], tail)
      rw [dropWhile_ws_cons _ (by decide)]
      rfl
    | cons s2 ss2 =>
      rw [List.map_cons, List.map_cons, stringifyJsonList, stringifyJson]
      rw [List.append_assoc, List.cons_append]
      cases fuel with
      | zero =>
        simp only [List.length_cons] at hlen
        omega
      | succ f =>
        rw [parseJsonItems]
        rw [pjv_str]
        show (match (',' :: (stringifyJsonList (Json.str s2 :: ss2.map .str) ++ ']' :: tail)).dropWhile isJsonWs with
          | ',' :: rest2 =>
            match parseJsonItems (f + 1) (rest2.dropWhile isJsonWs) with
            | some (xs, rest3) => some (Json.str s :: xs, rest3)
            | none => none
          | ']' :: rest2 => some ([Json.str s], rest2)
          | _ => none) = some (Json.str s :: Json.str s2 :: ss2.map .str, tail)
        rw [dropWhile_ws_cons _ (by decide)]
        obtain ⟨t, ht⟩ := stringifyJsonList_str_head s2 (ss2.map .str)
        have hdrop : ((stringifyJsonList (Json.str s2 :: ss2.map .str) ++ ']' :: tail).dropWhile
            isJsonWs) = stringifyJsonList (Json.str s2 :: ss2.map .str) ++ ']' :: tail := by
          rw [ht, List.cons_append]
          exact List.dropWhile_cons_of_neg (by decide)
        show (match parseJsonItems (f + 1)
            ((stringifyJsonList (Json.str s2 :: ss2.map .str) ++ ']' :: tail).dropWhile isJsonWs) with
          | some (xs, rest3) => some (Json.str s :: xs, rest3)
          | none => none) = some (Json.str s :: Json.str s2 :: ss2.map .str, tail)
        rw [hdrop]
        have hitems := ih f tail (by simp) (by simp only [List.length_cons] at hlen ⊢; omega)
        rw [List.map_cons] at hitems
        rw [hitems]

theorem pjv_arr_str (fuel : Nat) (v : List String) (tail : List Char) (hf : v.length ≤ fuel) :
    parseJsonValue (fuel + 1) (stringifyJson (.arr (v.map .str)) ++ tail)
      = some (.arr (v.map .str), tail) := by
  rw [stringifyJson]
  rw [List.cons_append, List.cons_append, List.append_assoc, List.singleton_append]
  rw [parseJsonValue]
  cases v with
  | nil =>
    rw [List.map_nil, stringifyJsonList]
    rw [List.nil_append]
    show (match (']' :: tail).dropWhile isJsonWs with
      | ']' :: rest2 => some (Json.arr [], rest2)
      | s2 =>
        match parseJsonItems fuel s2 with
        | some (xs, rest2) => some (Json.arr xs, rest2)
        | none => none) = some (Json.arr [], tail)
    rw [dropWhile_ws_cons _ (by decide)]
    rfl
  | cons s ss =>
    obtain ⟨t, ht⟩ := stringifyJsonList_str_head s (ss.map .str)
    rw [List.map_cons]
    show (match (stringifyJsonList (Json.str s :: ss.map .str) ++ ']' :: tail).dropWhile isJsonWs with
      | ']' :: rest2 => some (Json.arr [], rest2)
      | s2 =>
        match parseJsonItems fuel s2 with
        | some (xs, rest2) => some (Json.arr xs, rest2)
        | none => none) = some (Json.arr (Json.str s :: ss.map .str), tail)
    have hdrop : (stringifyJsonList (Json.str s :: ss.map .str) ++ ']' :: tail).dropWhile isJsonWs
        = stringifyJsonList (Json.str s :: ss.map .str) ++ ']' :: tail := by
      rw [ht, List.cons_append]
      exact List.dropWhile_cons_of_neg (by decide)
    rw [hdrop]
    cases fuel with
    | zero => simp only [List.length_cons] at hf; omega
    | succ f =>
      have hitems := pji_strings (s :: ss) f tail (by simp)
        (by simp only [List.length_cons] at hf ⊢; omega)
      rw [List.map_cons] at hitems
      rw [ht]
      rw [ht] at hitems
      show (match parseJsonItems (f + 1) ('"' :: t ++ ']' :: tail) with
        | some (xs, rest2) => some (Json.arr xs, rest2)
        | none => none) = some (Json.arr (Json.str s :: ss.map .str), tail)
      rw [hitems]

theorem quoteJsonString_drop (s : String) (t : List Char) :
    (quoteJsonString s ++ t).dropWhile isJsonWs = quoteJsonString s ++ t := by
  rw [quoteJsonString, List.cons_append, List.cons_append]
  exact List.dropWhile_cons_of_neg (by decide)

theorem pjm_last (fuel : Nat) (k : String) (vj : Json) (vtxt tail : List Char)
    (hv : parseJsonValue (fuel + 1) (vtxt ++ '}' :: tail) = some (vj, '}' :: tail))
    (hvd : (vtxt ++ '}' :: tail).dropWhile isJsonWs = vtxt ++ '}' :: tail) :
    parseJsonMembers (fuel + 1) (quoteJsonString k ++ ':' :: (vtxt ++ '}' :: tail))
      = some ([(k, vj)], tail) := by
  rw [quoteJsonString, List.cons_append, List.cons_append, List.append_assoc,
    List.singleton_append]
  rw [parseJsonMembers]
  rw [psb_flatten]
  show (match (':' :: (vtxt ++ '}' :: tail)).dropWhile isJsonWs with
    | ':' :: rest2 =>
      match parseJsonValue (fuel + 1) (rest2.dropWhile isJsonWs) with
      | some (v, rest3) =>
        match rest3.dropWhile isJsonWs with
        | ',' :: rest4 =>
          match parseJsonMembers fuel (rest4.dropWhile isJsonWs) with
          | some (fs, rest5) => some ((String.mk k.data, v) :: fs, rest5)
          | none => none
        | '}' :: rest4 => some ([(String.mk k.data, v)], rest4)
        | _ => none
      | none => none
    | _ => none) = some ([(k, vj)], tail)
  rw [dropWhile_ws_cons _ (by decide)]
  show (match parseJsonValue (fuel + 1) ((vtxt ++ '}' :: tail).dropWhile isJsonWs) with
    | some (v, rest3) =>
      match rest3.dropWhile isJsonWs with
      | ',' :: rest4 =>
        match parseJsonMembers fuel (rest4.dropWhile isJsonWs) with
        | some (fs, rest5) => some ((String.mk k.data, v) :: fs, rest5)
        | none => none
      | '}' :: rest4 => some ([(String.mk k.data, v)], rest4)
      | _ => none
    | none => none) = some ([(k, vj)], tail)
  rw [hvd, hv]
  show (match ('}' :: tail).dropWhile isJsonWs with
    | ',' :: rest4 =>
      match parseJsonMembers fuel (rest4.dropWhile isJsonWs) with
      | some (fs, rest5) => some ((String.mk k.data, vj) :: fs, rest5)
      | none => none
    | '}' :: rest4 => some ([(String.mk k.data, vj)], rest4)
    | _ => none) = some ([(k, vj)], tail)
  rw [dropWhile_ws_cons _ (by decide)]
  rfl

theorem pjm_cons (fuel : Nat) (k : String) (vj : Json) (vtxt next : List Char)
    (fs : List (String × Json)) (tail : List Char)
    (hv : parseJsonValue (fuel + 1) (vtxt ++ ',' :: next) = some (vj, ',' :: next))
    (hvd : (vtxt ++ ',' :: next).dropWhile isJsonWs = vtxt ++ ',' :: next)
    (hnd : next.dropWhile isJsonWs = next)
    (hrec : parseJsonMembers fuel next = some (fs, tail)) :
    parseJsonMembers (fuel + 1) (quoteJsonString k ++ ':' :: (vtxt ++ ',' :: next))
      = some ((k, vj) :: fs, tail) := by
  rw [quoteJsonString, List.cons_append, List.cons_append, List.append_assoc,
    List.singleton_append]
  rw [parseJsonMembers]
  rw [psb_flatten]
  show (match (':' :: (vtxt ++ ',' :: next)).dropWhile isJsonWs with
    | ':' :: rest2 =>
      match parseJsonValue (fuel + 1) (rest2.dropWhile isJsonWs) with
      | some (v, rest3) =>
        match rest3.dropWhile isJsonWs with
        | ',' :: rest4 =>
          match parseJsonMembers fuel (rest4.dropWhile isJsonWs) with
          | some (fs, rest5) => some ((String.mk k.data, v) :: fs, rest5)
          | none => none
        | '}' :: rest4 => some ([(String.mk k.data, v)], rest4)
        | _ => none
      | none => none
    | _ => none) = some ((k, vj) :: fs, tail)
  rw [dropWhile_ws_cons _ (by decide)]
  show (match parseJsonValue (fuel + 1) ((vtxt ++ ',' :: next).dropWhile isJsonWs) with
    | some (v, rest3) =>
      match rest3.dropWhile isJsonWs with
      | ',' :: rest4 =>
        match parseJsonMembers fuel (rest4.dropWhile isJsonWs) with
        | some (fs, rest5) => some ((String.mk k.data, v) :: fs, rest5)
        | none => none
      | '}' :: rest4 => some ([(String.mk k.data, v)], rest4)
      | _ => none
    | none => none) = some ((k, vj) :: fs, tail)
  rw [hvd, hv]
  show (match (',' :: next).dropWhile isJsonWs with
    | ',' :: rest4 =>
      match parseJsonMembers fuel (rest4.dropWhile isJsonWs) with
      | some (fs, rest5) => some ((String.mk k.data, vj) :: fs, rest5)
      | none => none
    | '}' :: rest4 => some ([(String.mk k.data, vj)], rest4)
    | _ => none) = some ((k, vj) :: fs, tail)
  rw [dropWhile_ws_cons _ (by decide)]
  show (match parseJsonMembers fuel (next.dropWhile isJsonWs) with
    | some (fs, rest5) => some ((String.mk k.data, vj) :: fs, rest5)
    | none => none) = some ((k, vj) :: fs, tail)
  rw [hnd, hrec]

theorem stringifyJson_arr_drop (xs : List Json) (t : List Char) :
    (stringifyJson (.arr xs) ++ t).dropWhile isJsonWs = stringifyJson (.arr xs) ++ t := by
  rw [stringifyJson, List.cons_append, List.cons_append]
  exact List.dropWhile_cons_of_neg (by decide)

theorem pjm_prompt (g : Nat) (n c : String) (v : List String) (tail : List Char)
    (hg : v.length ≤ g) :
    parseJsonMembers (g + 3)
      (stringifyJsonFields [("name", .str n), ("content", .str c),
        ("variables", .arr (v.map .str))] ++ '}' :: tail)
      = some ([("name", .str n), ("content", .str c),
          ("variables", .arr (v.map .str))], tail) := by
  rw [stringifyJsonFields]
  rw [stringifyJsonFields]
  rw [stringifyJsonFields]
  rw [stringifyJson, stringifyJson]
  simp only [List.append_assoc, List.cons_append]
  have h3 : parseJsonMembers (g + 1)
      (quoteJsonString "variables" ++ ':' :: (stringifyJson (.arr (v.map .str)) ++ '}' :: tail))
      = some ([("variables", .arr (v.map .str))], tail) :=
    pjm_last g "variables" _ _ tail (pjv_arr_str g v ('}' :: tail) hg)
      (stringifyJson_arr_drop _ _)
  have h2 : parseJsonMembers (g + 2)
      (quoteJsonString "content" ++ ':' :: (quoteJsonString c
        ++ ',' :: (quoteJsonString "variables"
          ++ ':' :: (stringifyJson (.arr (v.map .str)) ++ '}' :: tail))))
      = some ([("content", .str c), ("variables", .arr (v.map .str))], tail) :=
    pjm_cons (g + 1) "content" _ (quoteJsonString c) _ _ tail
      (pjv_str (g + 1) c _) (quoteJsonString_drop _ _) (quoteJsonString_drop _ _) h3
  exact pjm_cons (g + 2) "name" _ (quoteJsonString n) _ _ tail
    (pjv_str (g + 2) n _) (quoteJsonString_drop _ _) (quoteJsonString_drop _ _) h2

theorem pjv_prompt (g : Nat) (n c : String) (v : List String) (tail : List Char)
    (hg : v.length ≤ g) :
    parseJsonValue (g + 4) (stringifyJson (promptJson n c v) ++ tail)
      = some (promptJson n c v, tail) := by
  rw [promptJson, stringifyJson]
  rw [List.cons_append, List.cons_append, List.append_assoc, List.singleton_append]
  rw [show g + 4 = (g + 3) + 1 from rfl]
  rw [parseJsonValue]
  have hhead : ∃ t, stringifyJsonFields [("name", Json.str n), ("content", Json.str c),
      ("variables", Json.arr (v.map .str))] = '"' :: t := by
    rw [stringifyJsonFields, quoteJsonString]
    exact ⟨_, rfl⟩
  obtain ⟨t, ht⟩ := hhead
  have hdrop : (stringifyJsonFields [("name", Json.str n), ("content", Json.str c),
        ("variables", Json.arr (v.map .str))] ++ '}' :: tail).dropWhile isJsonWs
      = stringifyJsonFields [("name", Json.str n), ("content", Json.str c),
        ("variables", Json.arr (v.map .str))] ++ '}' :: tail := by
    rw [ht, List.cons_append]
    exact List.dropWhile_cons_of_neg (by decide)
  show (match (stringifyJsonFields [("name", Json.str n), ("content", Json.str c),
        ("variables", Json.arr (v.map .str))] ++ '}' :: tail).dropWhile isJsonWs with
    | '}' :: rest2 => some (Json.obj [], rest2)
    | s2 =>
      match parseJsonMembers (g + 3) s2 with
      | some (fs, rest2) => some (Json.obj fs, rest2)
      | none => none)
    = some (Json.obj [("name", Json.str n), ("content", Json.str c),
        ("variables", Json.arr (v.map .str))], tail)
  rw [hdrop, ht]
  show (match parseJsonMembers (g + 3) ('"' :: t ++ '}' :: tail) with
    | some (fs, rest2) => some (Json.obj fs, rest2)
    | none => none)
    = some (Json.obj [("name", Json.str n), ("content", Json.str c),
        ("variables", Json.arr (v.map .str))], tail)
  rw [← ht, pjm_prompt g n c v tail hg]

theorem quoteJsonString_length (s : String) : 2 ≤ (quoteJsonString s).length := by
  rw [quoteJsonString]
  simp only [List.cons_append, List.length_cons, List.length_append, List.length_singleton]
  omega

theorem stringifyJsonList_str_length (v : List String) :
    v.length ≤ (stringifyJsonList (v.map .str)).length := by
  induction v with
  | nil => simp [stringifyJsonList]
  | cons s ss ih =>
    cases ss with
    | nil =>
      rw [List.map_cons, List.map_nil, stringifyJsonList, stringifyJson]
      have := quoteJsonString_length s
      simp only [List.length_cons, List.length_nil]
      omega
    | cons s2 ss2 =>
      rw [List.map_cons, List.map_cons, stringifyJsonList, stringifyJson]
      rw [List.map_cons] at ih
      simp only [List.length_append, List.length_cons] at ih ⊢
      omega

theorem promptJson_length (n c : String) (v : List String) :
    v.length + 4 ≤ (stringifyJson (promptJson n c v)).length := by
  rw [promptJson, stringifyJson]
  rw [stringifyJsonFields, stringifyJsonFields, stringifyJsonFields]
  rw [stringifyJson, stringifyJson, stringifyJson]
  have h1 := stringifyJsonList_str_length v
  have h2 := quoteJsonString_length n
  have h3 := quoteJsonString_length c
  have h4 := quoteJsonString_length "name"
  have h5 := quoteJsonString_length "content"
  have h6 := quoteJsonString_length "variables"
  simp only [List.length_append, List.length_cons, List.length_singleton]
  omega

theorem jsonParse_prompt (n c : String) (v : List String) :
    jsonParse (String.mk (stringifyJson (promptJson n c v))) = some (promptJson n c v) := by
  rw [jsonParse]
  simp only [String.data]
  have hlen := promptJson_length n c v
  have hdrop : (stringifyJson (promptJson n c v)).dropWhile isJsonWs
      = stringifyJson (promptJson n c v) := by
    rw [promptJson, stringifyJson, List.cons_append]
    exact List.dropWhile_cons_of_neg (by decide)
  rw [hdrop]
  have hvalue := pjv_prompt ((stringifyJson (promptJson n c v)).length - 3) n c v []
    (by omega)
  rw [List.append_nil] at hvalue
  rw [show (stringifyJson (promptJson n c v)).length - 3 + 4
      = (stringifyJson (promptJson n c v)).length + 1 from by omega] at hvalue
  rw [hvalue]
  rfl

/-! ### Claims C2 and C4 -/

/-- C2: for every name string, content string and variable list — arbitrary
Unicode text included — decoding the token produced by encoding the triple
yields exactly the original `{name, content, variables}` value:
`deserializePrompt` after `serializePrompt` returns the very object that was
stringified. -/
theorem c2_decode_encode_roundtrip (n c : String) (v : List String) :
    (serializePrompt n c v).bind deserializePrompt = some (promptJson n c v) := by
  rw [serializePrompt]
  have hascii := encodeURIComponent_toNat_lt (String.mk (stringifyJson (promptJson n c v)))
  rw [btoa?, if_pos (by rw [List.all_eq_true]; intro ch hch; simpa using hascii ch hch)]
  rw [Option.some_bind]
  rw [deserializePrompt]
  rw [atob?_btoa _ hascii]
  rw [Option.some_bind]
  rw [decodeURIComponent?_encodeURIComponent]
  rw [Option.some_bind]
  rw [jsonParse_prompt]

/-- C4, amended part: a token that is not valid base64 (the spec example
`not-valid-base64!!`) and a token whose decoded bytes are not valid JSON
(`Ig==`, decoding to a lone quote) both decode to `null`, and
`deserializePrompt` is a total function — every decoding exception is caught
and turned into `null`. -/
theorem c4_decode_malformed_null :
    deserializePrompt "not-valid-base64!!" = none ∧ deserializePrompt "Ig==" = none := by
  constructor
  · rw [deserializePrompt]
    rw [show atob? "not-valid-base64!!" = none from by decide]
    rfl
  · rw [deserializePrompt]
    rw [show atob? "Ig==" = some (String.mk ['"']) from by decide]
    rw [Option.some_bind]
    have hdec : decodeURIComponent? (String.mk ['"']) = some (String.mk ['"']) := by
      rw [decodeURIComponent?]
      simp only [String.data]
      rw [uriDecode_lit (by decide), decodeURIComponentChars]
      rfl
    rw [hdec, Option.some_bind]
    rw [jsonParse]
    show (match parseJsonValue ((['"'] : List Char).length + 1)
        ((['"'] : List Char).dropWhile isJsonWs) with
      | some (v, rest) => if rest.dropWhile isJsonWs = [] then some v else none
      | none => none) = none
    rw [show (['"'] : List Char).dropWhile isJsonWs = ['"'] from rfl]
    rw [parseJsonValue]
    rw [parseStringBody]

/-- C4, refuting the missing-fields part: the token `e30=` decodes (base64,
then percent-decoding) to the valid JSON text for the empty object, which has
none of the fields name, content or variables, yet `deserializePrompt`
returns the parsed empty object rather than `null` — the source returns
whatever `JSON.parse` produced, checking nothing about its shape. -/
theorem c4_counterexample_missing_fields :
    deserializePrompt "e30=" = some (Json.obj []) := by
  rw [deserializePrompt]
  rw [show atob? "e30=" = some (String.mk ['{', '}']) from by decide]
  rw [Option.some_bind]
  have hdec : decodeURIComponent? (String.mk ['{', '}']) = some (String.mk ['{', '}']) := by
    rw [decodeURIComponent?]
    simp only [String.data]
    rw [uriDecode_lit (by decide), uriDecode_lit (by decide), decodeURIComponentChars]
    rfl
  rw [hdec, Option.some_bind]
  rw [jsonParse]
  show (match parseJsonValue ((['{', '}'] : List Char).length + 1)
      ((['{', '}'] : List Char).dropWhile isJsonWs) with
    | some (v, rest) => if rest.dropWhile isJsonWs = [] then some v else none
    | none => none) = some (Json.obj [])
  rw [show (['{', '}'] : List Char).dropWhile isJsonWs = ['{', '}'] from rfl]
  rw [parseJsonValue]
  rw [show (['}'] : List Char).dropWhile isJsonWs = ['}'] from rfl]
  rfl
